import Mathlib

/-!
Verification of the Odie model layer (change tracking, partial-update
synthesis, context-based cleaning, persistence orchestration).

The definitions below are a shallow embedding of the JavaScript sources
under `lib/model/` (`utils.js`, `manipulators.js`, `persistence.js`,
`attributes/accessors.js`, `finders.js`) together with the behaviour of the
two small npm collaborators the change-set engine calls into
(`deep-diff` 0.3.x and `flat`), which the source uses as pure functions.

Modelling conventions:
* JavaScript values are modelled by `Val`.  The constructor `Val.vundefined`
  stands for the JavaScript value `undefined`, so an object key that is
  present but holds `undefined` is representable (exactly as in JS, where
  `Object.keys` still lists such a key).  `Val.vdate` models `Date`
  objects (compared by timestamp, no enumerable keys), matching how
  `deep-diff` treats them.  Document identifiers are modelled as plain
  strings; no theorem below diffs two distinct identifiers.
* JavaScript exceptions (`TypeError` from indexing into
  `undefined`/`null`, `Object.keys(null)`, assignment into a deleted
  `$set` bucket) are modelled with `Option`/`Except`: `none` /
  `Except.error` means the original code throws at that point.
* Mutation is modelled by explicit state passing; an instance is its
  `working` state (`*`) plus its optional `persisted` snapshot (`_*`).
-/

/-- JavaScript value domain used by the model layer. -/
inductive Val where
  | vundefined : Val
  | vnull : Val
  | vbool : Bool → Val
  | vint : Int → Val
  | vstr : String → Val
  | vdate : Int → Val
  | varr : List Val → Val
  | vobj : List (String × Val) → Val

mutual

/-- Boolean equality on values (structural, like a deep `===`-per-leaf). -/
def Val.beq : Val → Val → Bool
  | .vundefined, .vundefined => true
  | .vnull, .vnull => true
  | .vbool a, .vbool b => a == b
  | .vint a, .vint b => a == b
  | .vstr a, .vstr b => a == b
  | .vdate a, .vdate b => a == b
  | .varr xs, .varr ys => Val.beqList xs ys
  | .vobj fs, .vobj gs => Val.beqFields fs gs
  | _, _ => false

/-- Boolean equality on value lists. -/
def Val.beqList : List Val → List Val → Bool
  | [], [] => true
  | x :: xs, y :: ys => Val.beq x y && Val.beqList xs ys
  | _, _ => false

/-- Boolean equality on field lists. -/
def Val.beqFields : List (String × Val) → List (String × Val) → Bool
  | [], [] => true
  | (k, v) :: fs, (l, w) :: gs => k == l && Val.beq v w && Val.beqFields fs gs
  | _, _ => false

end

mutual

theorem Val.eq_of_beq : ∀ {a b : Val}, Val.beq a b = true → a = b
  | .vundefined, .vundefined, _ => rfl
  | .vnull, .vnull, _ => rfl
  | .vbool _, .vbool _, h => by
    simp only [Val.beq, beq_iff_eq] at h; exact congrArg Val.vbool h
  | .vint _, .vint _, h => by
    simp only [Val.beq, beq_iff_eq] at h; exact congrArg Val.vint h
  | .vstr _, .vstr _, h => by
    simp only [Val.beq, beq_iff_eq] at h; exact congrArg Val.vstr h
  | .vdate _, .vdate _, h => by
    simp only [Val.beq, beq_iff_eq] at h; exact congrArg Val.vdate h
  | .varr _, .varr _, h => by
    simp only [Val.beq] at h
    exact congrArg Val.varr (Val.eqList_of_beqList h)
  | .vobj _, .vobj _, h => by
    simp only [Val.beq] at h
    exact congrArg Val.vobj (Val.eqFields_of_beqFields h)

theorem Val.eqList_of_beqList : ∀ {xs ys : List Val},
    Val.beqList xs ys = true → xs = ys
  | [], [], _ => rfl
  | _ :: _, _ :: _, h => by
    simp only [Val.beqList, Bool.and_eq_true] at h
    rw [Val.eq_of_beq h.1, Val.eqList_of_beqList h.2]

theorem Val.eqFields_of_beqFields : ∀ {fs gs : List (String × Val)},
    Val.beqFields fs gs = true → fs = gs
  | [], [], _ => rfl
  | (_, _) :: _, (_, _) :: _, h => by
    simp only [Val.beqFields, Bool.and_eq_true, beq_iff_eq] at h
    obtain ⟨⟨h1, h2⟩, h3⟩ := h
    rw [h1, Val.eq_of_beq h2, Val.eqFields_of_beqFields h3]

end

mutual

theorem Val.beq_refl : ∀ (a : Val), Val.beq a a = true
  | .vundefined => rfl
  | .vnull => rfl
  | .vbool _ => by simp [Val.beq]
  | .vint _ => by simp [Val.beq]
  | .vstr _ => by simp [Val.beq]
  | .vdate _ => by simp [Val.beq]
  | .varr xs => by simp only [Val.beq]; exact Val.beqList_refl xs
  | .vobj fs => by simp only [Val.beq]; exact Val.beqFields_refl fs

theorem Val.beqList_refl : ∀ (xs : List Val), Val.beqList xs xs = true
  | [] => rfl
  | x :: xs => by
    simp only [Val.beqList, Bool.and_eq_true]
    exact ⟨Val.beq_refl x, Val.beqList_refl xs⟩

theorem Val.beqFields_refl : ∀ (fs : List (String × Val)),
    Val.beqFields fs fs = true
  | [] => rfl
  | (k, v) :: fs => by
    simp [Val.beqFields, Val.beq_refl v, Val.beqFields_refl fs]

end

instance : DecidableEq Val := fun a b =>
  if h : Val.beq a b = true then
    isTrue (Val.eq_of_beq h)
  else
    isFalse (fun he => h (he ▸ Val.beq_refl a))

/-- The result of the JavaScript `typeof` operator on a modelled value. -/
def jsType : Val → String
  | .vundefined => "undefined"
  | .vnull => "object"
  | .vbool _ => "boolean"
  | .vint _ => "number"
  | .vstr _ => "string"
  | .vdate _ => "object"
  | .varr _ => "object"
  | .vobj _ => "object"

/-- JavaScript truthiness of a modelled value (no NaN in the model). -/
def truthy : Val → Bool
  | .vundefined => false
  | .vnull => false
  | .vbool b => b
  | .vint n => n != 0
  | .vstr s => s ≠ ""
  | .vdate _ => true
  | .varr _ => true
  | .vobj _ => true

/-- First-match association-list lookup (JS object property lookup). -/
def lookupStr (fs : List (String × Val)) (k : String) : Option Val :=
  (fs.find? (fun p => p.1 == k)).map Prod.snd

/-- Decimal reading of an all-digit string (the model's kernel-reducible
stand-in for `String.toNat!`, which only ever runs on digit strings
here). -/
def strToNat (s : String) : Nat :=
  s.data.foldl (fun n c => n * 10 + (c.toNat - 48)) 0

/-- Whether a string is a canonical JavaScript array-index key:
nonempty, all digits, no superfluous leading zero.  (ECMAScript also caps
array indices at 2^32 - 1; the cap could only matter for the `Object.keys`
ordering of a plain object carrying an astronomically-large digit key, and
is not modelled.) -/
def isIndexKey (s : String) : Bool :=
  s ≠ "" && s.data.all Char.isDigit && (s = "0" || s.data.head? ≠ some '0')

/-- Decimal digit characters. -/
def digitChar : Nat → Char
  | 0 => '0'
  | 1 => '1'
  | 2 => '2'
  | 3 => '3'
  | 4 => '4'
  | 5 => '5'
  | 6 => '6'
  | 7 => '7'
  | 8 => '8'
  | 9 => '9'
  | _ => '0'

/-- Decimal digit list of a natural number (most significant first); the
fuel argument only bounds recursion depth and `natKey` always supplies
enough. -/
def natKeyAux : Nat → Nat → List Char
  | 0, _ => []
  | fuel + 1, n =>
    if n < 10 then [digitChar n]
    else natKeyAux fuel (n / 10) ++ [digitChar (n % 10)]

/-- Decimal rendering of a natural number, as JavaScript `String(i)`
renders an array index used as a path component. -/
def natKey (n : Nat) : String :=
  ⟨natKeyAux (n + 1) n⟩

/-- JavaScript property access `v[k]`, total; `vundefined` plays the role of
the JS `undefined` result.  Call sites where JS would throw (indexing into
`null`/`undefined`) handle that case before calling this.  The `length`
property of arrays and strings is not modelled here; the one consumer that
reads a `length` off a non-array (the differ's array loop) does so through
`arrLenI` below. -/
def lookupD (v : Val) (k : String) : Val :=
  match v with
  | .vobj fs => (lookupStr fs k).getD .vundefined
  | .varr xs =>
    if isIndexKey k then
      match xs.get? (strToNat k) with
      | some x => x
      | none => .vundefined
    else .vundefined
  | .vstr s =>
    if isIndexKey k && strToNat k < s.data.length then
      .vstr (String.singleton (s.data.getD (strToNat k) ' '))
    else .vundefined
  | _ => .vundefined

/-- Utility `deepFetch` from `utils.js`:
a `while (arr.length && (obj = obj[arr.shift()])) {}` walk.  Each step
reads the next property; the walk continues only while segments remain and
the value just read is truthy, and returns the last value read (which may
be a falsy intermediate). -/
def deepFetchD (v : Val) : List String → Val
  | [] => v
  | s :: rest =>
    let c := lookupD v s
    if rest = [] then c
    else if truthy c then deepFetchD c rest
    else c

/-- Dot-splitting of a list of characters; `splitList [] = [""]` because
`''.split('.')` is `['']` in JavaScript. -/
def splitList : List Char → List String
  | [] => [""]
  | c :: cs =>
    match splitList cs, decide (c = '.') with
    | r :: rs, true => "" :: r :: rs
    | r :: rs, false => (String.singleton c ++ r) :: rs
    | [], _ => []

/-- Dot-splitting of a path string, as done by `path.split('.')`. -/
def splitDots (p : String) : List String :=
  splitList p.data

/-- Dot-joining of path components, as done by `path.join('.')`.  Numeric
array indices are rendered with `natKey` before joining. -/
def joinDots : List String → String
  | [] => ""
  | [s] => s
  | s :: t :: rest => s ++ "." ++ joinDots (t :: rest)

/-- Instance method `get(property, def)` from `manipulators.js`: fetch via
`deepFetch` and fall back to the default only when the fetched value is
`undefined` in the `typeof` sense. -/
def instGet (working : Val) (property : String) (dflt : Val) : Val :=
  let actual := deepFetchD working (splitDots property)
  if actual = .vundefined then dflt else actual

theorem deepFetchD_cons (v : Val) (s : String) (rest : List String) :
    deepFetchD v (s :: rest) =
      if rest = [] then lookupD v s
      else if truthy (lookupD v s) then deepFetchD (lookupD v s) rest
      else lookupD v s :=
  rfl

theorem deepFetchD_append_of_falsy (root : Val) (q post : List String)
    (h : truthy (deepFetchD root q) = false) (hq : q ≠ []) :
    deepFetchD root (q ++ post) = deepFetchD root q := by
  induction q generalizing root with
  | nil => exact absurd rfl hq
  | cons s rest ih =>
    cases post with
    | nil => simp
    | cons p ps =>
      rw [List.cons_append, deepFetchD_cons root s (rest ++ p :: ps),
        deepFetchD_cons root s rest]
      rw [deepFetchD_cons root s rest] at h
      cases rest with
      | nil =>
        rw [if_pos rfl] at h
        rw [if_neg (by simp), if_pos rfl, if_neg (by simp [h])]
      | cons r rs =>
        rw [if_neg (List.cons_ne_nil r rs)] at h
        rw [if_neg (by simp), if_neg (List.cons_ne_nil r rs)]
        by_cases ht : truthy (lookupD root s) = true
        · rw [if_pos ht] at h
          rw [if_pos ht, if_pos ht]
          exact ih (lookupD root s) h (List.cons_ne_nil r rs)
        · rw [if_neg ht, if_neg ht]

/-- Claim C10: when a non-final path segment holds a falsy value
(`0`, `''`, `null`, `false`), `deepFetch` stops and returns that falsy
intermediate value itself rather than `undefined`, and consequently
`instance.get(path, default)` returns the falsy value, not the supplied
default. -/
theorem deepFetch_falsy_intermediate (root : Val) (q post : List String)
    (v : Val) (hq : q ≠ []) (_hpost : post ≠ [])
    (hv : deepFetchD root q = v) (hfalsy : truthy v = false)
    (hcu : v ≠ .vundefined) :
    deepFetchD root (q ++ post) = v ∧
      ∀ dflt pathStr, splitDots pathStr = q ++ post →
        instGet root pathStr dflt = v := by
  have h1 : deepFetchD root (q ++ post) = v := by
    rw [deepFetchD_append_of_falsy root q post (hv ▸ hfalsy) hq, hv]
  refine ⟨h1, fun dflt pathStr hsplit => ?_⟩
  simp only [instGet, hsplit, h1]
  exact if_neg hcu

theorem deepFetch_falsy_intermediate_witness :
    deepFetchD (Val.vobj [("a", Val.vint 0)]) ["a"] = Val.vint 0 ∧
      deepFetchD (Val.vobj [("a", Val.vint 0)]) (["a"] ++ ["b"]) =
        Val.vint 0 ∧
      instGet (Val.vobj [("a", Val.vint 0)]) "a.b" (Val.vstr "fallback") =
        Val.vint 0 := by
  have h := deepFetch_falsy_intermediate (Val.vobj [("a", Val.vint 0)])
    ["a"] ["b"] (Val.vint 0) (by simp) (by simp) (by decide) (by decide)
    (by decide)
  exact ⟨by decide, h.1, h.2 (Val.vstr "fallback") "a.b" (by decide)⟩

/-- Errors surfaced by the embedded operations: either a native JavaScript
`TypeError` (indexing into `undefined`/`null`, `Object.keys(null)`,
writing into a deleted update bucket) or a `Klass.Error` carrying its kind
string (`'attribute'`, `'argument'`, `'persistence'`, `'result'`,
`'value'`, `'validation'`, `'id'`). -/
inductive MError where
  | jsError : MError
  | kerr : String → MError
deriving DecidableEq

/-- Replacement-or-append write of one key into a field list, which is how
JS object assignment behaves (insertion order is kept on overwrite). -/
def setField (fs : List (String × Val)) (k : String) (v : Val) :
    List (String × Val) :=
  match fs with
  | [] => [(k, v)]
  | (l, w) :: rest =>
    if l == k then (l, v) :: rest else (l, w) :: setField rest k v

/-- Element write into an array by index key; writing one past the end
appends, writing further past the end pads with holes (modelled `vundefined`).
A non-index key written onto an array is modelled as a silent no-op: in JS
it would set a non-index property that is invisible to serialization,
diffing and flattening, and nothing in this development reads one back. -/
def setElem (xs : List Val) (k : String) (v : Val) : List Val :=
  if isIndexKey k then
    let n := strToNat k
    if n < xs.length then xs.set n v
    else xs ++ List.replicate (n - xs.length) .vundefined ++ [v]
  else xs

/-- Whether a value is a container that create-mode walks may link a fresh
`{}` into. -/
def canLink : Val → Bool
  | .vobj _ => true
  | .varr _ => true
  | _ => false

/-- JavaScript property assignment `container[k] = v` as a total-state
rewrite; `none` models the `TypeError` thrown when the container is
`undefined` or `null`, and assignment onto a primitive is the silent
sloppy-mode no-op. -/
def assignKey (container : Val) (k : String) (v : Val) : Option Val :=
  match container with
  | .vundefined => none
  | .vnull => none
  | .vobj fs => some (.vobj (setField fs k v))
  | .varr xs => some (.varr (setElem xs k v))
  | c => some c

/-- JavaScript `delete container[k]`; deleting off `undefined`/`null`
throws, deleting an object key removes it, deleting an array index leaves
a hole (modelled `vundefined`), and deleting off a primitive is a no-op. -/
def deleteKey (container : Val) (k : String) : Option Val :=
  match container with
  | .vundefined => none
  | .vnull => none
  | .vobj fs => some (.vobj (fs.filter (fun p => !(p.1 == k))))
  | .varr xs => some (.varr (setElem xs k .vundefined))
  | c => some c

/-- Create-mode reference walk of `getPathReferenceArray(root, path,
{create: true})` from `utils.js`, without the final read or write: any
missing (`undefined`) intermediate is materialized as `{}` when its parent
is a linkable container; walking onwards through a primitive leaves the
next accumulator `undefined`, and the step after that throws. -/
def materialize (root : Val) : List String → Option Val
  | [] => some root
  | [_] => some root
  | part :: rest =>
    match root with
    | .vundefined => none
    | .vnull => none
    | _ =>
      let child := lookupD root part
      if child = .vundefined && canLink root then
        match materialize (.vobj []) rest with
        | some c => assignKey root part c
        | none => none
      else
        match materialize child rest with
        | some c => assignKey root part c
        | none => none

/-- Evaluation of `ref[0][ref[1]]` along the reference pair: strict
property reads, throwing (`none`) if a container along the way is
`undefined` or `null`. -/
def readRef (root : Val) : List String → Option Val
  | [] => some root
  | [key] =>
    match root with
    | .vundefined => none
    | .vnull => none
    | _ => some (lookupD root key)
  | part :: rest =>
    match root with
    | .vundefined => none
    | .vnull => none
    | _ => readRef (lookupD root part) rest

/-- Assignment `ref[0][ref[1]] = v` along the reference pair, rebuilding
the tree functionally. -/
def writeRef (root : Val) (segs : List String) (v : Val) : Option Val :=
  match segs with
  | [] => some root
  | [key] => assignKey root key v
  | part :: rest =>
    match root with
    | .vundefined => none
    | .vnull => none
    | _ =>
      match writeRef (lookupD root part) rest v with
      | some c => assignKey root part c
      | none => none

/-- Deletion `delete ref[0][ref[1]]` along the reference pair. -/
def deleteRef (root : Val) : List String → Option Val
  | [] => some root
  | [key] => deleteKey root key
  | part :: rest =>
    match root with
    | .vundefined => none
    | .vnull => none
    | _ =>
      match deleteRef (lookupD root part) rest with
      | some c => assignKey root part c
      | none => none

/-- Instance method `set(property, value)` from `manipulators.js`: a
create-mode reference walk followed by the assignment.  The new state is
returned; `none` models the JS `TypeError` on unwalkable paths. -/
def instSet (root : Val) (property : String) (value : Val) : Option Val :=
  match materialize root (splitDots property) with
  | some r1 => writeRef r1 (splitDots property) value
  | none => none

/-- Instance method `unset(property)` from `manipulators.js`: a reference
walk without creation followed by `delete`. -/
def instUnset (root : Val) (property : String) : Option Val :=
  deleteRef root (splitDots property)

/-- Instance method `push(property, value)` from `manipulators.js`:
create-mode walk, initialize the slot to `[]` when it reads back
`undefined`, then fail with an `attribute` `Klass.Error` unless the slot
re-reads as an array, else append.  Returns the new state and the new
length (the JS return value). -/
def pushModel (root : Val) (property : String) (value : Val) :
    Except MError (Val × Nat) :=
  let segs := splitDots property
  match materialize root segs with
  | none => .error .jsError
  | some r1 =>
    match readRef r1 segs with
    | none => .error .jsError
    | some cur =>
      match (if cur = .vundefined then writeRef r1 segs (.varr []) else some r1) with
      | none => .error .jsError
      | some r2 =>
        match readRef r2 segs with
        | none => .error .jsError
        | some cur2 =>
          match cur2 with
          | .varr xs =>
            match writeRef r2 segs (.varr (xs ++ [value])) with
            | none => .error .jsError
            | some r3 => .ok (r3, xs.length + 1)
          | _ => .error (.kerr "attribute")

/-- Instance method `unshift(property, value)` from `manipulators.js`:
same shape as `push` but prepends. -/
def unshiftModel (root : Val) (property : String) (value : Val) :
    Except MError (Val × Nat) :=
  let segs := splitDots property
  match materialize root segs with
  | none => .error .jsError
  | some r1 =>
    match readRef r1 segs with
    | none => .error .jsError
    | some cur =>
      match (if cur = .vundefined then writeRef r1 segs (.varr []) else some r1) with
      | none => .error .jsError
      | some r2 =>
        match readRef r2 segs with
        | none => .error .jsError
        | some cur2 =>
          match cur2 with
          | .varr xs =>
            match writeRef r2 segs (.varr (value :: xs)) with
            | none => .error .jsError
            | some r3 => .ok (r3, xs.length + 1)
          | _ => .error (.kerr "attribute")

/-- Instance method `splice(property, index, length)` from
`manipulators.js`: a reference walk without creation, then fail with an
`attribute` `Klass.Error` unless the slot holds an array, else splice out
`length` elements starting at `index` (clamped as `Array.prototype.splice`
clamps).  Returns the new state and the removed elements. -/
def spliceModel (root : Val) (property : String) (index length : Nat) :
    Except MError (Val × List Val) :=
  let segs := splitDots property
  match readRef root segs with
  | none => .error .jsError
  | some cur =>
    match cur with
    | .varr xs =>
      let start := min index xs.length
      let count := min length (xs.length - start)
      let removed := (xs.drop start).take count
      let remaining := xs.take start ++ xs.drop (start + count)
      match writeRef root segs (.varr remaining) with
      | none => .error .jsError
      | some r2 => .ok (r2, removed)
    | _ => .error (.kerr "attribute")

theorem setField_self (fs : List (String × Val)) (k : String) (v : Val)
    (h : lookupStr fs k = some v) : setField fs k v = fs := by
  induction fs with
  | nil => simp [lookupStr] at h
  | cons p rest ih =>
    obtain ⟨l, w⟩ := p
    by_cases hk : l = k
    · subst hk
      simp only [lookupStr, List.find?, beq_self_eq_true] at h
      simp only [Option.map, Option.some.injEq] at h
      simp [setField, ← h]
    · have hne : (l == k) = false := by simp [hk]
      simp only [lookupStr, List.find?, hne] at h
      simp only [setField, hne, Bool.false_eq_true, if_false]
      exact congrArg (List.cons (l, w)) (ih h)

theorem list_set_self {α : Type} (xs : List α) (n : Nat) (x : α)
    (h : xs.get? n = some x) : xs.set n x = xs := by
  induction xs generalizing n with
  | nil => simp at h
  | cons y ys ih =>
    cases n with
    | zero =>
      simp only [List.get?] at h
      cases h
      rfl
    | succ m =>
      simp only [List.get?] at h
      simp only [List.set]
      rw [ih m h]

theorem setElem_self (xs : List Val) (k : String) (v : Val)
    (hv : v ≠ .vundefined)
    (h : lookupD (.varr xs) k = v) : setElem xs k v = xs := by
  simp only [lookupD] at h
  by_cases hidx : isIndexKey k = true
  · rw [if_pos hidx] at h
    simp only [setElem, hidx, if_true]
    match hget : xs.get? (strToNat k) with
    | some x =>
      rw [hget] at h
      have hlt : strToNat k < xs.length := (List.get?_eq_some.mp hget).1
      rw [if_pos hlt]
      subst h
      exact list_set_self xs (strToNat k) x hget
    | none =>
      rw [hget] at h
      exact absurd h.symm hv
  · rw [if_neg hidx] at h
    exact absurd h.symm hv

theorem assignKey_self (root : Val) (k : String) (v : Val)
    (hroot : root ≠ .vundefined) (hroot2 : root ≠ .vnull)
    (hv : v ≠ .vundefined)
    (h : lookupD root k = v) : assignKey root k v = some root := by
  match root with
  | .vundefined => exact absurd rfl hroot
  | .vnull => exact absurd rfl hroot2
  | .vobj fs =>
    simp only [assignKey, Option.some.injEq, Val.vobj.injEq]
    simp only [lookupD] at h
    match hl : lookupStr fs k with
    | some w =>
      rw [hl] at h
      simp only [Option.getD] at h
      exact setField_self fs k v (h ▸ hl)
    | none =>
      rw [hl] at h
      exact absurd h.symm hv
  | .varr xs =>
    simp only [assignKey, Option.some.injEq, Val.varr.injEq]
    exact setElem_self xs k v hv h
  | .vbool b =>
    simp only [lookupD] at h
    exact absurd h.symm hv
  | .vint n =>
    simp only [lookupD] at h
    exact absurd h.symm hv
  | .vdate t =>
    simp only [lookupD] at h
    exact absurd h.symm hv
  | .vstr s => simp [assignKey]

theorem readRef_cons (root : Val) (part r : String) (rs : List String)
    (h1 : root ≠ .vundefined) (h2 : root ≠ .vnull) :
    readRef root (part :: r :: rs) = readRef (lookupD root part) (r :: rs) := by
  cases root with
  | vundefined => exact absurd rfl h1
  | vnull => exact absurd rfl h2
  | vbool b => rfl
  | vint n => rfl
  | vstr s => rfl
  | vdate t => rfl
  | varr xs => rfl
  | vobj fs => rfl

theorem materialize_cons (root : Val) (part r : String) (rs : List String)
    (h1 : root ≠ .vundefined) (h2 : root ≠ .vnull) :
    materialize root (part :: r :: rs) =
      if lookupD root part = .vundefined && canLink root then
        match materialize (.vobj []) (r :: rs) with
        | some c => assignKey root part c
        | none => none
      else
        match materialize (lookupD root part) (r :: rs) with
        | some c => assignKey root part c
        | none => none := by
  cases root with
  | vundefined => exact absurd rfl h1
  | vnull => exact absurd rfl h2
  | vbool b => rfl
  | vint n => rfl
  | vstr s => rfl
  | vdate t => rfl
  | varr xs => rfl
  | vobj fs => rfl

theorem readRef_materialize (root : Val) (segs : List String) (cur : Val)
    (h : readRef root segs = some cur) :
    materialize root segs = some root := by
  induction segs generalizing root with
  | nil => rfl
  | cons part rest ih =>
    cases rest with
    | nil => rfl
    | cons r rs =>
      have hroot : root ≠ Val.vundefined ∧ root ≠ Val.vnull := by
        constructor <;> intro he <;> subst he <;> simp [readRef] at h
      rw [readRef_cons root part r rs hroot.1 hroot.2] at h
      have hneq : lookupD root part ≠ .vundefined := by
        intro he
        rw [he] at h
        cases rs <;> simp [readRef] at h
      rw [materialize_cons root part r rs hroot.1 hroot.2,
        if_neg (by simp [hneq]), ih (lookupD root part) h]
      exact assignKey_self root part _ hroot.1 hroot.2 hneq rfl

/-- Claim C9: whenever `push`, `unshift` or `splice` is invoked on a path
whose current value is defined and is not an array, the call fails with an
`attribute` `Klass.Error` (the `AttributeError`).  The three manipulators
are pure state transformers in this embedding — no storage operation is
modelled in them at all, matching the claim that the failure is raised
synchronously before any I/O could be attempted. -/
theorem array_mutators_reject_nonarray (root : Val) (property : String)
    (cur value : Val) (index length : Nat)
    (hread : readRef root (splitDots property) = some cur)
    (hcu : cur ≠ .vundefined) (harr : ∀ xs, cur ≠ .varr xs) :
    pushModel root property value = .error (.kerr "attribute") ∧
      unshiftModel root property value = .error (.kerr "attribute") ∧
      spliceModel root property index length =
        .error (.kerr "attribute") := by
  have hmat := readRef_materialize root (splitDots property) cur hread
  have hstuck : ∀ (f : List Val → Except MError (Val × Nat)),
      (match cur with
        | Val.varr xs => f xs
        | _ => Except.error (MError.kerr "attribute")) =
        Except.error (MError.kerr "attribute") := by
    intro f
    cases cur with
    | vundefined => exact absurd rfl hcu
    | varr xs => exact absurd rfl (harr xs)
    | vnull => rfl
    | vbool b => rfl
    | vint n => rfl
    | vstr s => rfl
    | vdate t => rfl
    | vobj fs => rfl
  have hstuck2 : ∀ (f : List Val → Except MError (Val × List Val)),
      (match cur with
        | Val.varr xs => f xs
        | _ => Except.error (MError.kerr "attribute")) =
        Except.error (MError.kerr "attribute") := by
    intro f
    cases cur with
    | vundefined => exact absurd rfl hcu
    | varr xs => exact absurd rfl (harr xs)
    | vnull => rfl
    | vbool b => rfl
    | vint n => rfl
    | vstr s => rfl
    | vdate t => rfl
    | vobj fs => rfl
  refine ⟨?_, ?_, ?_⟩
  · simp only [pushModel, hmat, hread, if_neg hcu]
  · simp only [unshiftModel, hmat, hread, if_neg hcu]
  · simp only [spliceModel, hread]

theorem array_mutators_reject_nonarray_witness :
    readRef (Val.vobj [("foo", Val.vobj [("bar", Val.vstr "baz")])])
        (splitDots "foo.bar") = some (Val.vstr "baz") ∧
      pushModel (Val.vobj [("foo", Val.vobj [("bar", Val.vstr "baz")])])
        "foo.bar" (Val.vstr "bat") = .error (.kerr "attribute") ∧
      unshiftModel (Val.vobj [("foo", Val.vobj [("bar", Val.vstr "baz")])])
        "foo.bar" (Val.vstr "bat") = .error (.kerr "attribute") ∧
      spliceModel (Val.vobj [("foo", Val.vobj [("bar", Val.vstr "baz")])])
        "foo.bar" 0 1 = .error (.kerr "attribute") := by
  have h := array_mutators_reject_nonarray
    (Val.vobj [("foo", Val.vobj [("bar", Val.vstr "baz")])]) "foo.bar"
    (Val.vstr "baz") (Val.vstr "bat") 0 1 (by decide) (by decide)
    (fun xs hx => by cases hx)
  exact ⟨by decide, h.1, h.2.1, h.2.2⟩

/-- JS insertion sort step for integer-like keys (numeric ascending). -/
def insertIdxKey (x : String) : List String → List String
  | [] => [x]
  | y :: ys =>
    if strToNat x ≤ strToNat y then x :: y :: ys else y :: insertIdxKey x ys

/-- Numeric ascending sort of integer-like keys. -/
def sortIdxKeys : List String → List String
  | [] => []
  | x :: xs => insertIdxKey x (sortIdxKeys xs)

/-- The ECMAScript own-property key ordering used by `Object.keys`:
integer-like keys first in ascending numeric order, then the remaining
keys in insertion order. -/
def jsKeyList (ks : List String) : List String :=
  sortIdxKeys (ks.filter (fun k => isIndexKey k)) ++
    ks.filter (fun k => !(isIndexKey k))

/-- JavaScript `Object.keys`.  Arrays enumerate their indices (an element
that is the modelled hole `vundefined` is still enumerated; this conflates
`[undefined]` with a sparse hole, which nothing in this development
distinguishes).  Dates and primitives have no own enumerable keys. -/
def keysOf : Val → List String
  | .vobj fs => jsKeyList (fs.map Prod.fst)
  | .varr xs => (List.range xs.length).map natKey
  | _ => []

/-- The `length` property as the differ's array loops read it
(`i >= rhs.length`, `i < rhs.length`): a number for real arrays, a number
for a plain object that happens to carry a numeric `length` key, absent
(`none`, making every comparison false, as comparisons with `undefined`
are) otherwise.  Strings never reach these reads because a
string/array type mismatch is caught earlier as an edit. -/
def arrLenI : Val → Option Int
  | .varr xs => some (xs.length : Int)
  | .vobj fs =>
    match lookupStr fs "length" with
    | some (.vint n) => some n
    | _ => none
  | _ => none

/-- One change record of `deep-diff`: kind `N` (new), `E` (edit),
`D` (deleted) or `A` (array-length change), a structural path, and the two
sides.  An `A` record of the original library also carries an `index` and
an `item`; neither is read by `getChangedFields` or `getUpdateQuery`
(reading `.rhs` off an `A` record yields `undefined`, modelled `none`), so
they are not carried here. -/
inductive DKind where
  | N : DKind
  | E : DKind
  | D : DKind
  | A : DKind
deriving DecidableEq

structure Change where
  kind : DKind
  path : List String
  lhs : Option Val
  rhs : Option Val
deriving DecidableEq

/-- Whether a value is a modelled `Date` instance. -/
def isDateV : Val → Bool
  | .vdate _ => true
  | _ => false

mutual

/-- Structural depth of a value, used only to pre-compute sufficient fuel
for the differ and the flattener so that both reduce by kernel
computation. -/
def vdepth : Val → Nat
  | .varr xs => vdepthList xs + 1
  | .vobj fs => vdepthFields fs + 1
  | _ => 1

def vdepthList : List Val → Nat
  | [] => 0
  | x :: xs => max (vdepth x) (vdepthList xs)

def vdepthFields : List (String × Val) → Nat
  | [] => 0
  | (_, v) :: fs => max (vdepth v) (vdepthFields fs)

end

/-- The recursive differ of `deep-diff` 0.3.x (`deepDiff` in its
`index.js`), restricted to acyclic values (the stack-based cycle guard
never fires on trees).  Branch ladder in source order: an `undefined`
side yields `N`/`D`; a `typeof` mismatch yields `E`; two `Date`s with
different timestamps yield `E`; two non-null objects recurse — arrays by
ascending index, emitting one `A` record per index at-or-beyond the
right-hand `length` and recursing in range, then one `A` record per extra
right-hand index; other objects recurse keywise over `Object.keys` of
both sides; finally `lhs !== rhs` on primitives yields `E`.  The `fuel`
argument only bounds the recursion depth; `diffV` below always supplies
enough for it never to run out. -/
def diffF : Nat → Val → Val → List String → List Change
  | 0, _, _, _ => []
  | fuel + 1, l, r, path =>
    if jsType l = "undefined" then
      if jsType r ≠ "undefined" then [⟨.N, path, none, some r⟩] else []
    else if jsType r = "undefined" then
      [⟨.D, path, some l, none⟩]
    else if jsType l ≠ jsType r then
      [⟨.E, path, some l, some r⟩]
    else if isDateV l && isDateV r then
      if l ≠ r then [⟨.E, path, some l, some r⟩] else []
    else if jsType l = "object" ∧ l ≠ Val.vnull ∧ r ≠ Val.vnull then
      match l with
      | Val.varr xs =>
        (xs.enum.map (fun e =>
          match arrLenI r with
          | some L =>
            if (e.1 : Int) ≥ L then [Change.mk .A path none none]
            else diffF fuel e.2 (lookupD r (natKey e.1)) (path ++ [natKey e.1])
          | none =>
            diffF fuel e.2 (lookupD r (natKey e.1)) (path ++ [natKey e.1]))).flatten
          ++
          (match arrLenI r with
          | some L => List.replicate (L - (xs.length : Int)).toNat
              (Change.mk .A path none none)
          | none => [])
      | Val.vobj fs =>
        let akeys := keysOf (Val.vobj fs)
        let pkeys := keysOf r
        ((akeys.map (fun k =>
          if pkeys.contains k then
            diffF fuel (lookupD (Val.vobj fs) k) (lookupD r k) (path ++ [k])
          else
            -- deepDiff(lhs[k], undefined): a D record unless the value is
            -- itself undefined
            if lookupD (Val.vobj fs) k = Val.vundefined then []
            else [Change.mk .D (path ++ [k])
              (some (lookupD (Val.vobj fs) k)) none])).flatten)
          ++
          ((pkeys.filter (fun k => !(akeys.contains k))).map (fun k =>
            -- deepDiff(undefined, rhs[k]): an N record unless undefined
            if lookupD r k = Val.vundefined then []
            else [Change.mk .N (path ++ [k]) none (some (lookupD r k))])).flatten
      | Val.vdate _ =>
        -- a Date reaching the keywise branch has no own enumerable keys,
        -- so only the right-hand keys can contribute N records
        ((keysOf r).map (fun k =>
          if lookupD r k = Val.vundefined then []
          else [Change.mk .N (path ++ [k]) none (some (lookupD r k))])).flatten
      | _ =>
        -- unreachable: the typeof guard only admits object-typed left
        -- sides other than null
        []
    else
      if l ≠ r then [⟨.E, path, some l, some r⟩] else []

/-- The differ with always-sufficient fuel. -/
def diffV (l r : Val) (path : List String) : List Change :=
  diffF (vdepth l + 1) l r path

deriving instance DecidableEq for Except

/-- Whether `flat`'s `flatten` recurses into a value: a plain object or
array with at least one own key; dates, null and primitives are leaves,
and so are empty objects and arrays. -/
def isFlatExpandable : Val → Bool
  | .vobj fs => !fs.isEmpty
  | .varr xs => !xs.isEmpty
  | _ => false

/-- The key set of `flat`'s `flatten` (`Object.keys(flatten(v))`): each
own key in `Object.keys` order, recursing into expandable values and
joining nested keys with a dot.  Only the keys are modelled because
`getChangedFields` reads nothing else from the flattened object.  Fueled
like the differ; `flatKeys` supplies sufficient fuel. -/
def flatF : Nat → Val → List String
  | 0, _ => []
  | fuel + 1, v =>
    ((keysOf v).map (fun k =>
      let c := lookupD v k
      if isFlatExpandable c then (flatF fuel c).map (fun suffix => k ++ "." ++ suffix)
      else [k])).flatten

/-- Keys of `flatten v` with always-sufficient fuel. -/
def flatKeys (v : Val) : List String :=
  flatF (vdepth v) v

/-- Character-level string prefix test (what the escaped, beginning-
anchored regular expressions built by `isNestedInSome`,
`someAreNestedIn` and `getUpdateQuery` test). -/
def strPrefix (a b : String) : Bool :=
  a.data.isPrefixOf b.data

/-- Utility `isNestedInSome(prop, list)` from `utils.js`: some entry of
`list`, turned into a regular expression anchored at the beginning with
its text escaped, matches `prop` — that is, some entry is a string prefix
of `prop` (no dot-boundary check). -/
def isNestedInSome (prop : String) (list : List String) : Bool :=
  list.any (fun base => strPrefix base prop)

/-- Utility `someAreNestedIn(list, prop)` from `utils.js`: `prop` is a
string prefix of some entry of `list`. -/
def someAreNestedIn (list : List String) (prop : String) : Bool :=
  list.any (fun base => strPrefix prop base)

/-- JS `typeof` through an optional value (`none` is `undefined`). -/
def jsTypeOpt : Option Val → String
  | none => "undefined"
  | some v => jsType v

/-- Set-like insertion into the accumulator object of `getChangedFields`
(`accum[key] = 1` on a plain JS object keeps one entry per key, in first
insertion order). -/
def addKey (accum : List String) (k : String) : List String :=
  if accum.contains k then accum else accum ++ [k]

/-- One step of the `reduce` in `getChangedFields` (`persistence.js`
398-418).  For a non-object (or key-less object) right-hand side the
joined record path itself is accumulated; for an object right-hand side
the flattened leaf keys of the right-hand side are accumulated, and then
the flattened leaf keys of the left-hand side when that is a keyed
object.  `Except.error` models the `TypeError` from `Object.keys(null)`:
`typeof null` is `'object'`, so a `null` side reaches `Object.keys`
inside the branch conditions and throws. -/
def rawPropsStep (accum : List String) (c : Change) : Except Unit (List String) :=
  let join := joinDots c.path
  if jsTypeOpt c.rhs ≠ "object" then .ok (addKey accum join)
  else
    match c.rhs with
    | some Val.vnull => .error ()
    | none => .ok (addKey accum join)
    | some rv =>
      if (keysOf rv).length = 0 then .ok (addKey accum join)
      else
        let accum1 := (flatKeys rv).foldl
          (fun a suffix => addKey a (join ++ "." ++ suffix)) accum
        if jsTypeOpt c.lhs = "object" then
          match c.lhs with
          | some Val.vnull => .error ()
          | none => .ok accum1
          | some lv =>
            if (keysOf lv).length ≠ 0 then
              .ok ((flatKeys lv).foldl
                (fun a suffix => addKey a (join ++ "." ++ suffix)) accum1)
            else .ok accum1
        else .ok accum1

/-- The full `reduce` of `getChangedFields`. -/
def rawProps (cs : List Change) : Except Unit (List String) :=
  cs.foldlM rawPropsStep []

/-- The change set of an instance (`getChangeSet`): a `deep-diff` of the
persisted snapshot (or `{}` for new instances) against the working state.
The original returns `undefined` instead of an empty list; consumers test
for that, which the model renders as a test against `[]`. -/
def getChangeSet (persisted : Option (List (String × Val)))
    (working : List (String × Val)) : List Change :=
  diffV (.vobj (persisted.getD [])) (.vobj working) []

/-- Instance method `dirtyFields` (`getChangedFields` in
`persistence.js`): accumulate candidate paths from the change set, list
them in JS object-key order, then drop every candidate that some other
candidate string-prefixes (`isNestedInSome` against all the others). -/
def dirtyFields (persisted : Option (List (String × Val)))
    (working : List (String × Val)) : Except Unit (List String) := do
  let accum ← rawProps (getChangeSet persisted working)
  let props := jsKeyList accum
  pure (props.filter (fun prop =>
    !(isNestedInSome prop (props.filter (fun q => !(q == prop))))))

theorem digitChar_spec (d : Nat) (h : d < 10) :
    (digitChar d).isDigit = true ∧ (digitChar d).toNat = 48 + d ∧
      (d ≠ 0 → digitChar d ≠ '0') := by
  interval_cases d <;> exact ⟨by decide, by decide, fun h2 => by
    first
      | exact absurd rfl h2
      | decide⟩

theorem natKeyAux_spec (fuel : Nat) :
    ∀ n : Nat, n < fuel →
      natKeyAux fuel n ≠ [] ∧
      (∀ c ∈ natKeyAux fuel n, c.isDigit = true) ∧
      (natKeyAux fuel n).foldl (fun a c => a * 10 + (c.toNat - 48)) 0 = n ∧
      (n ≠ 0 → (natKeyAux fuel n).head? ≠ some '0') := by
  induction fuel with
  | zero => intro n h; omega
  | succ fuel ih =>
    intro n h
    by_cases h10 : n < 10
    · obtain ⟨hd1, hd2, hd3⟩ := digitChar_spec n h10
      simp only [natKeyAux, if_pos h10]
      refine ⟨by simp, by simpa using hd1, ?_, ?_⟩
      · simp only [List.foldl]
        omega
      · intro hn he
        simp only [List.head?_cons, Option.some.injEq] at he
        exact hd3 hn he
    · have hsplit : natKeyAux (fuel + 1) n =
          natKeyAux fuel (n / 10) ++ [digitChar (n % 10)] := by
        simp only [natKeyAux, if_neg h10]
      have hdiv : n / 10 < fuel := by
        have h1 : n / 10 < n := Nat.div_lt_self (by omega) (by omega)
        omega
      obtain ⟨ih1, ih2, ih3, ih4⟩ := ih (n / 10) hdiv
      obtain ⟨hd1, hd2, _⟩ := digitChar_spec (n % 10) (Nat.mod_lt n (by omega))
      rw [hsplit]
      refine ⟨by simp, ?_, ?_, ?_⟩
      · intro c hc
        rcases List.mem_append.mp hc with hc | hc
        · exact ih2 c hc
        · simp only [List.mem_singleton] at hc
          exact hc ▸ hd1
      · rw [List.foldl_append, ih3]
        simp only [List.foldl]
        omega
      · intro _
        rw [List.head?_append_of_ne_nil _ ih1]
        exact ih4 (by omega)

theorem strToNat_natKey (n : Nat) : strToNat (natKey n) = n := by
  have h := (natKeyAux_spec (n + 1) n (by omega)).2.2.1
  show (natKey n).data.foldl (fun a c => a * 10 + (c.toNat - 48)) 0 = n
  have hdata : (natKey n).data = natKeyAux (n + 1) n := rfl
  rw [hdata]
  exact h

theorem isIndexKey_natKey (n : Nat) : isIndexKey (natKey n) = true := by
  obtain ⟨h1, h2, _, h4⟩ := natKeyAux_spec (n + 1) n (by omega)
  simp only [isIndexKey, Bool.and_eq_true, Bool.or_eq_true]
  refine ⟨⟨?_, ?_⟩, ?_⟩
  · simp only [ne_eq, decide_eq_true_eq]
    intro he
    exact h1 (congrArg String.data he)
  · simp only [natKey, List.all_eq_true]
    exact fun c hc => h2 c hc
  · by_cases hz : n = 0
    · left
      subst hz
      decide
    · right
      simp only [natKey, ne_eq, decide_eq_true_eq]
      exact fun he => h4 hz he

theorem lookupD_varr_natKey (xs : List Val) (i : Nat) :
    lookupD (Val.varr xs) (natKey i) =
      match xs.get? i with
      | some x => x
      | none => Val.vundefined := by
  simp only [lookupD, isIndexKey_natKey, if_true, strToNat_natKey]

theorem diffF_self (fuel : Nat) : ∀ (v : Val) (path : List String),
    diffF fuel v v path = [] := by
  induction fuel with
  | zero => intro v path; rfl
  | succ fuel ih =>
    intro v path
    match v with
    | Val.vundefined => rfl
    | Val.vnull => rfl
    | Val.vbool b => simp [diffF, jsType]
    | Val.vint n => simp [diffF, jsType]
    | Val.vstr s => simp [diffF, jsType]
    | Val.vdate t => simp [diffF, jsType, isDateV]
    | Val.varr xs =>
      simp only [diffF, jsType, isDateV]
      rw [if_neg (by simp), if_neg (by simp), if_neg (by simp),
        if_neg (by simp), if_pos (by simp)]
      simp only [arrLenI]
      have harr : ∀ e ∈ xs.enum,
          (if (e.1 : Int) ≥ (xs.length : Int) then [Change.mk .A path none none]
            else diffF fuel e.2 (lookupD (Val.varr xs) (natKey e.1))
              (path ++ [natKey e.1])) = ([] : List Change) := by
        intro e he
        have hlt : e.1 < xs.length ∧ xs.get? e.1 = some e.2 := by
          have hg := List.mem_enum_iff_get?.mp he
          exact ⟨(List.get?_eq_some.mp hg).1, hg⟩
        rw [if_neg (by omega)]
        rw [lookupD_varr_natKey, hlt.2]
        exact ih e.2 (path ++ [natKey e.1])
      have hmap : (xs.enum.map (fun e =>
          if (e.1 : Int) ≥ (xs.length : Int) then [Change.mk .A path none none]
          else diffF fuel e.2 (lookupD (Val.varr xs) (natKey e.1))
            (path ++ [natKey e.1]))).flatten = ([] : List Change) := by
        rw [List.flatten_eq_nil_iff]
        intro l hl
        obtain ⟨e, he, hee⟩ := List.mem_map.mp hl
        rw [← hee]
        exact harr e he
      rw [hmap]
      simp
    | Val.vobj fs =>
      simp only [diffF, jsType, isDateV]
      rw [if_neg (by simp), if_neg (by simp), if_neg (by simp),
        if_neg (by simp), if_pos (by simp)]
      have hmap : ((keysOf (Val.vobj fs)).map (fun k =>
          if (keysOf (Val.vobj fs)).contains k then
            diffF fuel (lookupD (Val.vobj fs) k) (lookupD (Val.vobj fs) k)
              (path ++ [k])
          else
            if lookupD (Val.vobj fs) k = Val.vundefined then []
            else [Change.mk .D (path ++ [k])
              (some (lookupD (Val.vobj fs) k)) none])).flatten =
          ([] : List Change) := by
        rw [List.flatten_eq_nil_iff]
        intro l hl
        obtain ⟨k, hk, hkk⟩ := List.mem_map.mp hl
        rw [← hkk, if_pos (List.elem_eq_true_of_mem hk)]
        exact ih _ _
      rw [hmap]
      have hfilter : (keysOf (Val.vobj fs)).filter
          (fun k => !((keysOf (Val.vobj fs)).contains k)) = [] := by
        rw [List.filter_eq_nil_iff]
        intro k hk
        simp [List.elem_eq_true_of_mem, hk]
      rw [hfilter]
      simp

theorem diffV_self (v : Val) (path : List String) : diffV v v path = [] :=
  diffF_self (vdepth v + 1) v path

theorem diffF_obj (fuel : Nat) (p w : List (String × Val))
    (path : List String) :
    diffF (fuel + 1) (Val.vobj p) (Val.vobj w) path =
      ((keysOf (Val.vobj p)).map (fun k =>
        if (keysOf (Val.vobj w)).contains k then
          diffF fuel (lookupD (Val.vobj p) k) (lookupD (Val.vobj w) k)
            (path ++ [k])
        else
          if lookupD (Val.vobj p) k = Val.vundefined then []
          else [Change.mk .D (path ++ [k])
            (some (lookupD (Val.vobj p) k)) none])).flatten
      ++ (((keysOf (Val.vobj w)).filter
          (fun k => !((keysOf (Val.vobj p)).contains k))).map (fun k =>
          if lookupD (Val.vobj w) k = Val.vundefined then []
          else [Change.mk .N (path ++ [k]) none
            (some (lookupD (Val.vobj w) k))])).flatten := rfl

theorem diffF_arr (fuel : Nat) (xs ys : List Val) (path : List String) :
    diffF (fuel + 1) (Val.varr xs) (Val.varr ys) path =
      (xs.enum.map (fun e =>
        if (e.1 : Int) ≥ (ys.length : Int) then [Change.mk .A path none none]
        else diffF fuel e.2 (lookupD (Val.varr ys) (natKey e.1))
          (path ++ [natKey e.1]))).flatten
      ++ List.replicate ((ys.length : Int) - (xs.length : Int)).toNat
          (Change.mk .A path none none) := rfl

/-- Claim C2: on a fresh instance, after `set('a.b', x)` and
`set('a.c', y)` with leaf values (values `flat` does not expand: anything
but a non-empty plain object or array), `dirtyFields()` returns exactly
`['a.b', 'a.c']` — the two leaf paths, not the collapsed parent `['a']`. -/
theorem dirty_fields_minimal_after_nested_sets (x y : Val)
    (hx : isFlatExpandable x = false) (hy : isFlatExpandable y = false) :
    instSet (Val.vobj []) "a.b" x = some (Val.vobj [("a", Val.vobj [("b", x)])]) ∧
      instSet (Val.vobj [("a", Val.vobj [("b", x)])]) "a.c" y =
        some (Val.vobj [("a", Val.vobj [("b", x), ("c", y)])]) ∧
      dirtyFields none [("a", Val.vobj [("b", x), ("c", y)])] =
        .ok ["a.b", "a.c"] := by
  have hcs : getChangeSet none [("a", Val.vobj [("b", x), ("c", y)])] =
      [⟨.N, ["a"], none, some (Val.vobj [("b", x), ("c", y)])⟩] := rfl
  have hflat : flatKeys (Val.vobj [("b", x), ("c", y)]) = ["b", "c"] := by
    show flatF (vdepthFields [("b", x), ("c", y)] + 1)
      (Val.vobj [("b", x), ("c", y)]) = ["b", "c"]
    simp only [flatF]
    have h1 : keysOf (Val.vobj [("b", x), ("c", y)]) = ["b", "c"] := rfl
    rw [h1]
    have hb : lookupD (Val.vobj [("b", x), ("c", y)]) "b" = x := rfl
    have hc : lookupD (Val.vobj [("b", x), ("c", y)]) "c" = y := rfl
    simp only [List.map_cons, List.map_nil, hb, hc, hx, hy,
      Bool.false_eq_true, if_false, List.flatten]
    rfl
  have hraw : rawProps (getChangeSet none
      [("a", Val.vobj [("b", x), ("c", y)])]) = .ok ["a.b", "a.c"] := by
    rw [hcs]
    simp only [rawProps, List.foldlM, rawPropsStep, joinDots, jsTypeOpt,
      jsType]
    rw [hflat]
    rfl
  refine ⟨rfl, rfl, ?_⟩
  simp only [dirtyFields, hraw]
  rfl

theorem dirty_fields_minimal_after_nested_sets_witness :
    instSet (Val.vobj []) "a.b" (Val.vint 7) =
        some (Val.vobj [("a", Val.vobj [("b", Val.vint 7)])]) ∧
      instSet (Val.vobj [("a", Val.vobj [("b", Val.vint 7)])]) "a.c"
          (Val.vstr "z") =
        some (Val.vobj [("a", Val.vobj [("b", Val.vint 7),
          ("c", Val.vstr "z")])]) ∧
      dirtyFields none [("a", Val.vobj [("b", Val.vint 7),
          ("c", Val.vstr "z")])] = .ok ["a.b", "a.c"] :=
  dirty_fields_minimal_after_nested_sets (Val.vint 7) (Val.vstr "z")
    (by decide) (by decide)

/-- Claim C3, corrected.  The post-filter of `dirtyFields` removes a
candidate exactly when some other emitted candidate is a string prefix of
it (no dot-boundary check, and the more specific path is the one dropped —
not, as the claim stated, the ancestor).  In particular array-shortening
changes collapse to the array's own base path: the per-index candidates
are dropped because the base path string-prefixes them, demonstrated here
on a length-5 array spliced down to its first three (arbitrary)
elements. -/
theorem dirty_filter_keeps_nonprefixed_and_collapses_arrays :
    (∀ (persisted : Option (List (String × Val)))
        (working : List (String × Val)) (props : List String) (f : String),
      rawProps (getChangeSet persisted working) = .ok props →
      ∃ ds, dirtyFields persisted working = .ok ds ∧
        (f ∈ ds ↔ f ∈ jsKeyList props ∧
          ∀ q ∈ jsKeyList props, q ≠ f → strPrefix q f = false)) ∧
    (∀ a b c d e : Val,
      dirtyFields (some [("foo", Val.varr [a, b, c, d, e])])
        [("foo", Val.varr [a, b, c])] = .ok ["foo"]) := by
  constructor
  · intro persisted working props f h
    refine ⟨(jsKeyList props).filter (fun prop =>
      !(isNestedInSome prop
        ((jsKeyList props).filter (fun q => !(q == prop))))), ?_, ?_⟩
    · simp only [dirtyFields, h]
      rfl
    · rw [List.mem_filter]
      constructor
      · rintro ⟨h1, h2⟩
        refine ⟨h1, fun q hq hne => ?_⟩
        simp only [Bool.not_eq_true', isNestedInSome, List.any_eq_false] at h2
        exact Bool.eq_false_iff.mpr
          (h2 q (List.mem_filter.mpr ⟨hq, by simp [hne]⟩))
      · rintro ⟨h1, h2⟩
        refine ⟨h1, ?_⟩
        simp only [Bool.not_eq_true', isNestedInSome, List.any_eq_false]
        intro q hq
        rw [List.mem_filter] at hq
        exact Bool.eq_false_iff.mp (h2 q hq.1 (by simpa using hq.2))
  · intro a b c d e
    have hcs : getChangeSet (some [("foo", Val.varr [a, b, c, d, e])])
        [("foo", Val.varr [a, b, c])] =
        [⟨.A, ["foo"], none, none⟩, ⟨.A, ["foo"], none, none⟩] := by
      show diffF (vdepthFields [("foo", Val.varr [a, b, c, d, e])] + 1 + 1)
        (Val.vobj [("foo", Val.varr [a, b, c, d, e])])
        (Val.vobj [("foo", Val.varr [a, b, c])]) [] = _
      simp [diffF_obj, diffF_arr, diffF_self, List.enum, List.enumFrom,
        show keysOf (Val.vobj [("foo", Val.varr [a, b, c, d, e])]) =
          ["foo"] from rfl,
        show keysOf (Val.vobj [("foo", Val.varr [a, b, c])]) =
          ["foo"] from rfl,
        show lookupD (Val.vobj [("foo", Val.varr [a, b, c, d, e])]) "foo" =
          Val.varr [a, b, c, d, e] from rfl,
        show lookupD (Val.vobj [("foo", Val.varr [a, b, c])]) "foo" =
          Val.varr [a, b, c] from rfl,
        show lookupD (Val.varr [a, b, c]) (natKey 0) = a from rfl,
        show lookupD (Val.varr [a, b, c]) (natKey 1) = b from rfl,
        show lookupD (Val.varr [a, b, c]) (natKey 2) = c from rfl]
    simp only [dirtyFields, hcs]
    rfl

theorem dirty_filter_keeps_nonprefixed_and_collapses_arrays_witness :
    (∃ ds, dirtyFields none [("foo", Val.vint 1), ("foobar", Val.vint 2)] =
        .ok ds ∧
      ("foo" ∈ ds ↔ "foo" ∈ jsKeyList ["foo", "foobar"] ∧
        ∀ q ∈ jsKeyList ["foo", "foobar"], q ≠ "foo" →
          strPrefix q "foo" = false)) ∧
    dirtyFields (some [("foo", Val.varr [Val.vint 1, Val.vint 2, Val.vint 3,
        Val.vint 4, Val.vint 5])])
      [("foo", Val.varr [Val.vint 1, Val.vint 2, Val.vint 3])] =
      .ok ["foo"] :=
  ⟨dirty_filter_keeps_nonprefixed_and_collapses_arrays.1 none
      [("foo", Val.vint 1), ("foobar", Val.vint 2)] ["foo", "foobar"] "foo"
      (by decide),
    dirty_filter_keeps_nonprefixed_and_collapses_arrays.2 (Val.vint 1)
      (Val.vint 2) (Val.vint 3) (Val.vint 4) (Val.vint 5)⟩

/-- Claim C3, counterexample to the claim as stated: with dirty sibling
top-level fields `foo` and `foobar` (no arrays anywhere, so the
array-shortening exception does not apply), the post-filter removes the
candidate `foobar` even though `foobar` is not a strict ancestor-prefix of
any other emitted path — `foo` merely happens to be a string prefix of
`foobar`. -/
theorem dirty_filter_ancestor_only_counterexample :
    rawProps (getChangeSet none [("foo", Val.vint 1), ("foobar", Val.vint 2)]) =
        .ok ["foo", "foobar"] ∧
      dirtyFields none [("foo", Val.vint 1), ("foobar", Val.vint 2)] =
        .ok ["foo"] ∧
      (∀ q ∈ ["foo", "foobar"], ¬ strPrefix ("foobar" ++ ".") q = true) ∧
      (∀ c ∈ getChangeSet none [("foo", Val.vint 1), ("foobar", Val.vint 2)],
        c.kind ≠ DKind.A) := by
  refine ⟨by decide, by decide, by decide, by decide⟩

/-- Whether a string is a well-shaped individual path component: nonempty
and free of dots.  Every component that `deep-diff` joins when run on a
well-formed state has this shape, which makes `path.join('.')` invertible
on the paths that actually occur. -/
def keyOk (k : String) : Bool :=
  !k.data.isEmpty && !k.data.contains '.'

/-- No key occurs twice (a JavaScript object cannot hold duplicate
keys). -/
def nodupKeys : List String → Bool
  | [] => true
  | k :: ks => !ks.contains k && nodupKeys ks

mutual

/-- Well-formed model values: the image of a JSON-like JavaScript value
with no `undefined` members and with object keys that are nonempty,
dot-free and pairwise distinct.  Data hydrated from storage or built by
ordinary literals has this shape. -/
def WFVal : Val → Bool
  | .vundefined => false
  | .varr xs => WFList xs
  | .vobj fs =>
    nodupKeys (fs.map Prod.fst) && (fs.map Prod.fst).all keyOk &&
      WFFields fs
  | _ => true

def WFList : List Val → Bool
  | [] => true
  | x :: xs => WFVal x && WFList xs

def WFFields : List (String × Val) → Bool
  | [] => true
  | (_, v) :: fs => WFVal v && WFFields fs

end

/-- A MongoDB update document as `getUpdateQuery` builds it: optional
`$set` and `$unset` buckets, each a JavaScript object modelled as an
insertion-ordered association list.  `$set` starts out present and empty,
`$unset` is created on first use, and either can be deleted again by the
cleanup of the array pass. -/
structure UpdateQuery where
  set : Option (List (String × Val))
  unset : Option (List (String × Val))
deriving DecidableEq

/-- Whether `key` matches the purge pattern
`new RegExp('^' + escapeRegExp(path) + '\.[\d]+')` of the array pass in
`getUpdateQuery`: `key` starts with `path`, then a literal dot, then at
least one decimal digit. -/
def indexNested (key path : String) : Bool :=
  strPrefix (path ++ ".") key &&
    (match key.data.drop (path.data.length + 1) with
     | c :: _ => c.isDigit
     | [] => false)

/-- One iteration of the `changeset.forEach` of `getUpdateQuery`
(`persistence.js` 443-462), on the state (`$set` contents, optional
`$unset` contents, `arrayPaths`): an `N` or `E` record writes
`change.rhs` into `$set` at the joined path, an `A` record adds the
joined path to the `arrayPaths` set, and a `D` record writes `''` into
`$unset`, creating that bucket on first use.  During this pass `$set` is
the initial, never-deleted object, so the state carries its contents as a
plain list. -/
def updateStep
    (st : List (String × Val) × Option (List (String × Val)) × List String)
    (c : Change) :
    List (String × Val) × Option (List (String × Val)) × List String :=
  let join := joinDots c.path
  let st1 := if c.kind = .N ∨ c.kind = .E
    then (setField st.1 join (c.rhs.getD .vundefined), st.2.1, st.2.2)
    else st
  let st2 := if c.kind = .A then (st1.1, st1.2.1, addKey st1.2.2 join)
    else st1
  if c.kind = .D
    then (st2.1, some (setField (st2.2.1.getD []) join (.vstr "")), st2.2.2)
    else st2

/-- The per-operator purge of the array pass of `getUpdateQuery`: drop
every key matching the index pattern under `path`, then delete the bucket
when that left it empty; a bucket that was already absent stays absent
(`updateQuery[operator] || {}` enumerates no keys, and the cleanup is
guarded by `updateQuery[operator] &&`). -/
def purgeBucket (path : String) :
    Option (List (String × Val)) → Option (List (String × Val))
  | none => none
  | some m =>
    let m1 := m.filter (fun kv => !(indexNested kv.1 path))
    if m1.isEmpty then none else some m1

/-- One iteration of the `arrayPaths.toArray().forEach` of
`getUpdateQuery` (`persistence.js` 467-483): purge both buckets, then
assign the whole working-copy value `instance.get(path)` into `$set` at
`path`.  When the purge has just deleted `$set`, that assignment is a
property write on `undefined` and throws a `TypeError`, modelled by
`none`. -/
def arrayPathStep (working : List (String × Val)) (q : UpdateQuery)
    (path : String) : Option UpdateQuery :=
  let s1 := purgeBucket path q.set
  let u1 := purgeBucket path q.unset
  match s1 with
  | none => none
  | some m =>
    some ⟨some (setField m path (instGet (.vobj working) path .vundefined)),
      u1⟩

/-- `getUpdateQuery` (`persistence.js` 435-488).  An empty change set
(`undefined` in the original, which returns `undefined` for "nothing to
do") yields `Except.ok none`; `Except.error` is the `TypeError` of the
array pass. -/
def getUpdateQuery (persisted : Option (List (String × Val)))
    (working : List (String × Val)) : Except Unit (Option UpdateQuery) :=
  let cs := getChangeSet persisted working
  if cs = [] then .ok none
  else
    let st := cs.foldl updateStep ([], none, [])
    match st.2.2.foldlM (arrayPathStep working) ⟨some st.1, st.2.1⟩ with
    | some q => .ok (some q)
    | none => .error ()

/-- The `arrayPaths` set collected by the first pass of
`getUpdateQuery`: the joined paths of the `A` records, one entry per
distinct path, in first-insertion order. -/
def arrayPathsOf (cs : List Change) : List String :=
  (cs.foldl updateStep ([], none, [])).2.2

theorem strPrefix_iff (a b : String) :
    strPrefix a b = true ↔ a.data <+: b.data := by
  simp [strPrefix, List.isPrefixOf_iff_prefix]

theorem nodupKeys_iff : ∀ ks : List String, nodupKeys ks = true ↔ ks.Nodup
  | [] => by simp [nodupKeys]
  | k :: ks => by
    simp [nodupKeys, nodupKeys_iff ks, List.contains]

theorem joinDots_cons_cons (s t : String) (rest : List String) :
    (joinDots (s :: t :: rest)).data =
      s.data ++ '.' :: (joinDots (t :: rest)).data := by
  show (s ++ "." ++ joinDots (t :: rest)).data = _
  rw [String.data_append, String.data_append]
  simp

theorem data_append_dot (s : String) :
    (s ++ ".").data = s.data ++ ['.'] := by
  rw [String.data_append]

/-- Two decompositions of one character list around a first dot agree when
neither front part contains a dot, stated for the prefix order. -/
theorem nodot_dot_split :
    ∀ (x y u v : List Char), '.' ∉ x → '.' ∉ y →
      (x ++ '.' :: u) <+: (y ++ '.' :: v) → x = y ∧ u <+: v
  | [], y, u, v, _, hy, h => by
    cases y with
    | nil => exact ⟨rfl, by simpa using h⟩
    | cons c y' =>
      exfalso
      simp only [List.nil_append, List.cons_append, List.cons_prefix_cons] at h
      exact hy (by simp only [List.mem_cons]; exact Or.inl h.1)
  | c :: x', y, u, v, hx, hy, h => by
    cases y with
    | nil =>
      exfalso
      simp only [List.nil_append, List.cons_append, List.cons_prefix_cons] at h
      exact hx (by simp only [List.mem_cons]; exact Or.inl h.1.symm)
    | cons d y' =>
      simp only [List.cons_append, List.cons_prefix_cons] at h
      have ih := nodot_dot_split x' y' u v
        (fun hm => hx (List.mem_cons_of_mem _ hm))
        (fun hm => hy (List.mem_cons_of_mem _ hm)) h.2
      exact ⟨by rw [h.1, ih.1], ih.2⟩

/-- Equality version of `nodot_dot_split`. -/
theorem nodot_dot_eq :
    ∀ (x y u v : List Char), '.' ∉ x → '.' ∉ y →
      x ++ '.' :: u = y ++ '.' :: v → x = y ∧ u = v
  | [], y, u, v, _, hy, h => by
    cases y with
    | nil => simpa using h
    | cons c y' =>
      exfalso
      have hc : '.' = c := by simpa using congrArg (fun l => l.head?) h
      exact hy (by simp [← hc])
  | c :: x', y, u, v, hx, hy, h => by
    cases y with
    | nil =>
      exfalso
      have hc : c = '.' := by simpa using congrArg (fun l => l.head?) h
      exact hx (by simp [hc])
    | cons d y' =>
      simp only [List.cons_append, List.cons.injEq] at h
      have ih := nodot_dot_eq x' y' u v
        (fun hm => hx (List.mem_cons_of_mem _ hm))
        (fun hm => hy (List.mem_cons_of_mem _ hm)) h.2
      exact ⟨by rw [h.1, ih.1], ih.2⟩

theorem keyOk_ne_nil {k : String} (h : keyOk k = true) : k.data ≠ [] := by
  simp [keyOk] at h
  simpa [List.isEmpty_iff] using h.1

theorem keyOk_nodot {k : String} (h : keyOk k = true) : '.' ∉ k.data := by
  simp [keyOk, List.contains] at h
  exact h.2

/-- `joinDots as ++ "."` being a raw string prefix of `joinDots qs` forces
`as` to be a strict segment-list prefix of `qs`, provided every component
is nonempty and dot-free. -/
theorem joinDots_strict_under :
    ∀ (as qs : List String), (∀ k ∈ as, keyOk k = true) →
      (∀ k ∈ qs, keyOk k = true) →
      strPrefix (joinDots as ++ ".") (joinDots qs) = true →
      as <+: qs ∧ as ≠ qs
  | [], [], _, _, h => by
    exfalso
    rw [strPrefix_iff] at h
    have : (joinDots [] ++ ".").data = ['.'] := rfl
    rw [this] at h
    exact absurd (List.prefix_nil.mp h) (by simp)
  | [], q :: qs', _, _, _ => ⟨List.nil_prefix, by simp⟩
  | a :: as', qs, ha, hq, h => by
    rw [strPrefix_iff, data_append_dot] at h
    cases qs with
    | nil =>
      exfalso
      have h0 : (joinDots (a :: as')).data ++ ['.'] <+: ([] : List Char) := h
      exact absurd (List.prefix_nil.mp h0) (by simp)
    | cons q qs' =>
      have hka : keyOk a = true := ha a (by simp)
      have hkq : keyOk q = true := hq q (by simp)
      cases as' with
      | nil =>
        cases qs' with
        | nil =>
          exfalso
          have hmem : '.' ∈ q.data := h.subset (by simp)
          exact keyOk_nodot hkq hmem
        | cons t ts =>
          rw [joinDots_cons_cons q t ts] at h
          have hsplit := nodot_dot_split a.data q.data []
            ((joinDots (t :: ts)).data) (keyOk_nodot hka) (keyOk_nodot hkq) h
          have haq : a = q := String.ext hsplit.1
          subst haq
          exact ⟨List.cons_prefix_cons.mpr ⟨rfl, List.nil_prefix⟩, by simp⟩
      | cons b bs =>
        rw [joinDots_cons_cons a b bs] at h
        cases qs' with
        | nil =>
          exfalso
          have hmem : '.' ∈ q.data := h.subset (by simp)
          exact keyOk_nodot hkq hmem
        | cons t ts =>
          rw [joinDots_cons_cons q t ts] at h
          have hsplit := nodot_dot_split a.data q.data
            ((joinDots (b :: bs)).data ++ ['.']) ((joinDots (t :: ts)).data)
            (keyOk_nodot hka) (keyOk_nodot hkq)
            (by simpa [List.append_assoc] using h)
          have haq : a = q := String.ext hsplit.1
          have hsub : strPrefix (joinDots (b :: bs) ++ ".")
              (joinDots (t :: ts)) = true := by
            rw [strPrefix_iff, data_append_dot]; exact hsplit.2
          have ih := joinDots_strict_under (b :: bs) (t :: ts)
            (fun k hk => ha k (List.mem_cons_of_mem _ hk))
            (fun k hk => hq k (List.mem_cons_of_mem _ hk)) hsub
          subst haq
          refine ⟨List.cons_prefix_cons.mpr ⟨rfl, ih.1⟩, ?_⟩
          intro heq
          exact ih.2 (by injection heq)

/-- `path.join('.')` is injective on lists of nonempty dot-free
components. -/
theorem joinDots_inj :
    ∀ (as qs : List String), (∀ k ∈ as, keyOk k = true) →
      (∀ k ∈ qs, keyOk k = true) → joinDots as = joinDots qs → as = qs
  | [], [], _, _, _ => rfl
  | [], q :: qs', _, hq, h => by
    exfalso
    have hd : ([] : List Char) = (joinDots (q :: qs')).data :=
      congrArg String.data h
    cases qs' with
    | nil => exact keyOk_ne_nil (hq q (by simp)) hd.symm
    | cons t ts =>
      rw [joinDots_cons_cons] at hd
      exact absurd hd.symm (by simp [keyOk_ne_nil (hq q (by simp))])
  | a :: as', [], ha, _, h => by
    exfalso
    have hd : (joinDots (a :: as')).data = ([] : List Char) :=
      congrArg String.data h
    cases as' with
    | nil => exact keyOk_ne_nil (ha a (by simp)) hd
    | cons b bs =>
      rw [joinDots_cons_cons] at hd
      exact absurd hd (by simp [keyOk_ne_nil (ha a (by simp))])
  | a :: as', q :: qs', ha, hq, h => by
    have hka : keyOk a = true := ha a (by simp)
    have hkq : keyOk q = true := hq q (by simp)
    have hd := congrArg String.data h
    cases as' with
    | nil =>
      cases qs' with
      | nil => rw [show joinDots [a] = a from rfl, show joinDots [q] = q from rfl] at h; rw [h]
      | cons t ts =>
        exfalso
        rw [joinDots_cons_cons] at hd
        exact keyOk_nodot hka (by rw [show (joinDots [a]).data = a.data from rfl] at hd; rw [hd]; simp)
    | cons b bs =>
      cases qs' with
      | nil =>
        exfalso
        rw [joinDots_cons_cons] at hd
        exact keyOk_nodot hkq
          (by rw [show (joinDots [q]).data = q.data from rfl] at hd; rw [← hd]; simp)
      | cons t ts =>
        rw [joinDots_cons_cons a b bs, joinDots_cons_cons q t ts] at hd
        have he := nodot_dot_eq a.data q.data _ _
          (keyOk_nodot hka) (keyOk_nodot hkq) hd
        have ih := joinDots_inj (b :: bs) (t :: ts)
          (fun k hk => ha k (List.mem_cons_of_mem _ hk))
          (fun k hk => hq k (List.mem_cons_of_mem _ hk))
          (String.ext he.2)
        rw [String.ext he.1, ih]

/-- On joined well-shaped paths, the purge pattern of the array pass
recognizes exactly strict segment-list extension. -/
theorem indexNested_strict {qs as : List String}
    (hq : ∀ k ∈ qs, keyOk k = true) (ha : ∀ k ∈ as, keyOk k = true)
    (h : indexNested (joinDots qs) (joinDots as) = true) :
    as <+: qs ∧ as ≠ qs := by
  have h1 : strPrefix (joinDots as ++ ".") (joinDots qs) = true := by
    simp only [indexNested, Bool.and_eq_true] at h
    exact h.1
  exact joinDots_strict_under as qs ha hq h1

/-- A key containing no dot never matches the purge pattern. -/
theorem indexNested_nodot {k : String} (a : String) (h : '.' ∉ k.data) :
    indexNested k a = false := by
  cases he : indexNested k a with
  | false => rfl
  | true =>
    exfalso
    simp only [indexNested, Bool.and_eq_true] at he
    have h1 := (strPrefix_iff _ _).mp he.1
    rw [data_append_dot] at h1
    exact h (h1.subset (by simp))

theorem keyOk_natKey (n : Nat) : keyOk (natKey n) = true := by
  have h := isIndexKey_natKey n
  simp only [isIndexKey, Bool.and_eq_true, decide_eq_true_eq] at h
  obtain ⟨⟨h1, h2⟩, _⟩ := h
  simp only [keyOk, Bool.and_eq_true, Bool.not_eq_true']
  refine ⟨?_, ?_⟩
  · cases hd : (natKey n).data with
    | nil => exact absurd (String.ext hd) h1
    | cons c cs => rfl
  · rw [List.all_eq_true] at h2
    cases hc : (natKey n).data.contains '.' with
    | false => rfl
    | true =>
      exfalso
      have hm : '.' ∈ (natKey n).data := by
        simpa [List.contains] using hc
      exact absurd (h2 _ hm) (by decide)

theorem natKey_inj : Function.Injective natKey := by
  intro i j h
  have hi := strToNat_natKey i
  rw [h, strToNat_natKey] at hi
  exact hi.symm

theorem WFList_mem : ∀ {xs : List Val} {x : Val},
    WFList xs = true → x ∈ xs → WFVal x = true
  | [], _, _, hm => absurd hm (List.not_mem_nil _)
  | y :: ys, x, h, hm => by
    rw [show WFList (y :: ys) = (WFVal y && WFList ys) from rfl,
      Bool.and_eq_true] at h
    cases hm with
    | head => exact h.1
    | tail _ hm' => exact WFList_mem h.2 hm'

theorem WFFields_mem : ∀ {fs : List (String × Val)} {p : String × Val},
    WFFields fs = true → p ∈ fs → WFVal p.2 = true
  | [], _, _, hm => absurd hm (List.not_mem_nil _)
  | (a, v) :: fs, p, h, hm => by
    rw [show WFFields ((a, v) :: fs) = (WFVal v && WFFields fs) from rfl,
      Bool.and_eq_true] at h
    cases hm with
    | head => exact h.1
    | tail _ hm' => exact WFFields_mem h.2 hm'

/-- Property access on a well-formed value yields `undefined` or another
well-formed value. -/
theorem WF_lookupD {r : Val} (k : String) (h : WFVal r = true) :
    lookupD r k = .vundefined ∨ WFVal (lookupD r k) = true := by
  cases r with
  | vobj fs =>
    simp only [lookupD, lookupStr]
    cases hf : fs.find? (fun p => p.1 == k) with
    | none => exact Or.inl rfl
    | some p =>
      refine Or.inr ?_
      have hWF : WFFields fs = true := by
        rw [show WFVal (Val.vobj fs) =
          (nodupKeys (fs.map Prod.fst) && (fs.map Prod.fst).all keyOk &&
            WFFields fs) from rfl, Bool.and_eq_true] at h
        exact h.2
      exact WFFields_mem hWF (List.mem_of_find?_eq_some hf)
  | varr xs =>
    simp only [lookupD]
    by_cases hidx : isIndexKey k
    · rw [if_pos hidx]
      cases hg : xs.get? (strToNat k) with
      | none => exact Or.inl rfl
      | some x =>
        refine Or.inr ?_
        exact WFList_mem (by
          rw [show WFVal (Val.varr xs) = WFList xs from rfl] at h
          exact h) (List.get?_mem hg)
    · rw [if_neg hidx]
      exact Or.inl rfl
  | vstr s =>
    simp only [lookupD]
    split
    · exact Or.inr rfl
    · exact Or.inl rfl
  | vundefined => exact Or.inl rfl
  | vnull => exact Or.inl rfl
  | vbool b => exact Or.inl rfl
  | vint n => exact Or.inl rfl
  | vdate t => exact Or.inl rfl

theorem insertIdxKey_perm (x : String) :
    ∀ l : List String, List.Perm (insertIdxKey x l) (x :: l)
  | [] => List.Perm.refl _
  | y :: ys => by
    simp only [insertIdxKey]
    split
    · exact List.Perm.refl _
    · exact ((insertIdxKey_perm x ys).cons y).trans (List.Perm.swap x y ys)

theorem sortIdxKeys_perm :
    ∀ l : List String, List.Perm (sortIdxKeys l) l
  | [] => List.Perm.refl _
  | x :: xs => (insertIdxKey_perm x _).trans ((sortIdxKeys_perm xs).cons x)

theorem jsKeyList_perm (ks : List String) :
    List.Perm (jsKeyList ks) ks := by
  unfold jsKeyList
  exact ((sortIdxKeys_perm _).append_right _).trans
    (List.filter_append_perm _ ks)

theorem mem_jsKeyList {x : String} {ks : List String} :
    x ∈ jsKeyList ks ↔ x ∈ ks :=
  (jsKeyList_perm ks).mem_iff

theorem jsKeyList_nodup {ks : List String} (h : ks.Nodup) :
    (jsKeyList ks).Nodup :=
  ((jsKeyList_perm ks).nodup_iff).mpr h

theorem keysOf_nodup {r : Val} (h : WFVal r = true) : (keysOf r).Nodup := by
  cases r with
  | vobj fs =>
    refine jsKeyList_nodup ((nodupKeys_iff _).mp ?_)
    rw [show WFVal (Val.vobj fs) =
      (nodupKeys (fs.map Prod.fst) && (fs.map Prod.fst).all keyOk &&
        WFFields fs) from rfl, Bool.and_eq_true, Bool.and_eq_true] at h
    exact h.1.1
  | varr xs => exact (List.nodup_range _).map natKey_inj
  | vundefined => exact List.nodup_nil
  | vnull => exact List.nodup_nil
  | vbool b => exact List.nodup_nil
  | vint n => exact List.nodup_nil
  | vstr s => exact List.nodup_nil
  | vdate t => exact List.nodup_nil

theorem keysOf_keyOk {r : Val} (h : WFVal r = true) :
    ∀ k ∈ keysOf r, keyOk k = true := by
  cases r with
  | vobj fs =>
    intro k hk
    have hk' : k ∈ fs.map Prod.fst := mem_jsKeyList.mp hk
    have hall : (fs.map Prod.fst).all keyOk = true := by
      rw [show WFVal (Val.vobj fs) =
        (nodupKeys (fs.map Prod.fst) && (fs.map Prod.fst).all keyOk &&
          WFFields fs) from rfl, Bool.and_eq_true, Bool.and_eq_true] at h
      exact h.1.2
    exact List.all_eq_true.mp hall k hk'
  | varr xs =>
    intro k hk
    simp only [keysOf, List.mem_map] at hk
    obtain ⟨i, _, rfl⟩ := hk
    exact keyOk_natKey i
  | vundefined => intro k hk; cases hk
  | vnull => intro k hk; cases hk
  | vbool b => intro k hk; cases hk
  | vint n => intro k hk; cases hk
  | vstr s => intro k hk; cases hk
  | vdate t => intro k hk; cases hk

theorem le_fst_of_mem_enumFrom {α : Type} :
    ∀ {xs : List α} {n : Nat} {e : Nat × α}, e ∈ xs.enumFrom n → n ≤ e.1
  | [], _, _, hm => absurd hm (List.not_mem_nil _)
  | x :: xs, n, e, hm => by
    rw [show (x :: xs).enumFrom n = (n, x) :: xs.enumFrom (n + 1) from rfl]
      at hm
    cases hm with
    | head => exact Nat.le_refl n
    | tail _ hm' => exact Nat.le_of_succ_le (le_fst_of_mem_enumFrom hm')

theorem pairwise_fst_lt_enumFrom {α : Type} :
    ∀ (xs : List α) (n : Nat),
      (xs.enumFrom n).Pairwise (fun e1 e2 => e1.1 < e2.1)
  | [], _ => List.Pairwise.nil
  | x :: xs, n => by
    rw [show (x :: xs).enumFrom n = (n, x) :: xs.enumFrom (n + 1) from rfl]
    exact List.Pairwise.cons
      (fun e he => Nat.lt_of_succ_le (le_fst_of_mem_enumFrom he))
      (pairwise_fst_lt_enumFrom xs (n + 1))

theorem pairwise_fst_lt_enum {α : Type} (xs : List α) :
    xs.enum.Pairwise (fun e1 e2 => e1.1 < e2.1) :=
  pairwise_fst_lt_enumFrom xs 0

/-- Every record the differ emits under visit path `path` carries a path
extending `path` by nonempty dot-free components, provided both sides are
well formed (or `undefined`). -/
theorem diffF_path_shape :
    ∀ (fuel : Nat) (l r : Val) (path : List String) (c : Change),
      (l = .vundefined ∨ WFVal l = true) →
      (r = .vundefined ∨ WFVal r = true) →
      c ∈ diffF fuel l r path →
      ∃ suffix, c.path = path ++ suffix ∧ ∀ k ∈ suffix, keyOk k = true := by
  intro fuel
  induction fuel with
  | zero =>
    intro l r path c _ _ hc
    simp [diffF] at hc
  | succ fuel ih =>
    intro l r path c hl hr hc
    simp only [diffF] at hc
    split at hc
    · -- lhs undefined
      split at hc
      · rcases List.mem_singleton.mp hc with rfl
        exact ⟨[], by simp, by simp⟩
      · simp at hc
    · split at hc
      · -- rhs undefined: D at path
        rcases List.mem_singleton.mp hc with rfl
        exact ⟨[], by simp, by simp⟩
      · split at hc
        · -- typeof mismatch
          rcases List.mem_singleton.mp hc with rfl
          exact ⟨[], by simp, by simp⟩
        · split at hc
          · -- both dates
            split at hc
            · rcases List.mem_singleton.mp hc with rfl
              exact ⟨[], by simp, by simp⟩
            · simp at hc
          · split at hc
            · -- object branch
              cases l with
              | varr xs =>
                have hlw : WFVal (Val.varr xs) = true := by
                  rcases hl with h0 | h0
                  · cases h0
                  · exact h0
                rcases List.mem_append.mp hc with h1 | h1
                · obtain ⟨blk, hblk, hcb⟩ := List.mem_flatten.mp h1
                  obtain ⟨e, he, rfl⟩ := List.mem_map.mp hblk
                  have hrsub : lookupD r (natKey e.1) = .vundefined ∨
                      WFVal (lookupD r (natKey e.1)) = true := by
                    rcases hr with rfl | h0
                    · exact Or.inl rfl
                    · exact WF_lookupD _ h0
                  have hlwl : WFList xs = true := by
                    rw [show WFVal (Val.varr xs) = WFList xs from rfl] at hlw
                    exact hlw
                  have hmemxs : e.2 ∈ xs :=
                    List.get?_mem (List.mem_enum_iff_get?.mp he)
                  have hlsub : e.2 = Val.vundefined ∨ WFVal e.2 = true :=
                    Or.inr (WFList_mem hlwl hmemxs)
                  cases hLr : arrLenI r with
                  | some L =>
                    simp only [hLr] at hcb
                    by_cases hge : (e.1 : Int) ≥ L
                    · rw [if_pos hge] at hcb
                      rcases List.mem_singleton.mp hcb with rfl
                      exact ⟨[], by simp, by simp⟩
                    · rw [if_neg hge] at hcb
                      obtain ⟨s, hs, hsk⟩ :=
                        ih e.2 (lookupD r (natKey e.1))
                          (path ++ [natKey e.1]) c hlsub hrsub hcb
                      refine ⟨natKey e.1 :: s, ?_, ?_⟩
                      · rw [hs, List.append_assoc]; rfl
                      · intro k hk
                        rcases List.mem_cons.mp hk with rfl | hk'
                        · exact keyOk_natKey _
                        · exact hsk k hk'
                  | none =>
                    simp only [hLr] at hcb
                    obtain ⟨s, hs, hsk⟩ :=
                      ih e.2 (lookupD r (natKey e.1))
                        (path ++ [natKey e.1]) c hlsub hrsub hcb
                    refine ⟨natKey e.1 :: s, ?_, ?_⟩
                    · rw [hs, List.append_assoc]; rfl
                    · intro k hk
                      rcases List.mem_cons.mp hk with rfl | hk'
                      · exact keyOk_natKey _
                      · exact hsk k hk'
                · cases hLr : arrLenI r with
                  | some L =>
                    simp only [hLr] at h1
                    rcases List.eq_of_mem_replicate h1 with rfl
                    exact ⟨[], by simp, by simp⟩
                  | none =>
                    simp only [hLr] at h1
                    simp at h1
              | vobj fs =>
                have hlw : WFVal (Val.vobj fs) = true := by
                  rcases hl with h0 | h0
                  · cases h0
                  · exact h0
                rcases List.mem_append.mp hc with h1 | h1
                · obtain ⟨blk, hblk, hcb⟩ := List.mem_flatten.mp h1
                  obtain ⟨k, hk, rfl⟩ := List.mem_map.mp hblk
                  have hkOk : keyOk k = true := keysOf_keyOk hlw k hk
                  by_cases hcont : (keysOf r).contains k = true
                  · rw [if_pos hcont] at hcb
                    have hrsub : lookupD r k = .vundefined ∨
                        WFVal (lookupD r k) = true := by
                      rcases hr with rfl | h0
                      · exact Or.inl rfl
                      · exact WF_lookupD _ h0
                    have hlsub : lookupD (Val.vobj fs) k = .vundefined ∨
                        WFVal (lookupD (Val.vobj fs) k) = true :=
                      WF_lookupD _ hlw
                    obtain ⟨s, hs, hsk⟩ :=
                      ih (lookupD (Val.vobj fs) k) (lookupD r k)
                        (path ++ [k]) c hlsub hrsub hcb
                    refine ⟨k :: s, ?_, ?_⟩
                    · rw [hs, List.append_assoc]; rfl
                    · intro k' hk'
                      rcases List.mem_cons.mp hk' with rfl | hk''
                      · exact hkOk
                      · exact hsk k' hk''
                  · rw [if_neg hcont] at hcb
                    by_cases hu : lookupD (Val.vobj fs) k = Val.vundefined
                    · rw [if_pos hu] at hcb
                      simp at hcb
                    · rw [if_neg hu] at hcb
                      rcases List.mem_singleton.mp hcb with rfl
                      refine ⟨[k], by simp, ?_⟩
                      intro k' hk'
                      rcases List.mem_singleton.mp hk' with rfl
                      exact hkOk
                · obtain ⟨blk, hblk, hcb⟩ := List.mem_flatten.mp h1
                  obtain ⟨k, hkf, rfl⟩ := List.mem_map.mp hblk
                  have hk : k ∈ keysOf r := (List.mem_filter.mp hkf).1
                  have hkOk : keyOk k = true := by
                    rcases hr with rfl | h0
                    · simp [keysOf] at hk
                    · exact keysOf_keyOk h0 k hk
                  by_cases hu : lookupD r k = Val.vundefined
                  · rw [if_pos hu] at hcb
                    simp at hcb
                  · rw [if_neg hu] at hcb
                    rcases List.mem_singleton.mp hcb with rfl
                    refine ⟨[k], by simp, ?_⟩
                    intro k' hk'
                    rcases List.mem_singleton.mp hk' with rfl
                    exact hkOk
              | vdate tt =>
                obtain ⟨blk, hblk, hcb⟩ := List.mem_flatten.mp hc
                obtain ⟨k, hk, rfl⟩ := List.mem_map.mp hblk
                have hkOk : keyOk k = true := by
                  rcases hr with rfl | h0
                  · simp [keysOf] at hk
                  · exact keysOf_keyOk h0 k hk
                by_cases hu : lookupD r k = Val.vundefined
                · rw [if_pos hu] at hcb
                  simp at hcb
                · rw [if_neg hu] at hcb
                  rcases List.mem_singleton.mp hcb with rfl
                  refine ⟨[k], by simp, ?_⟩
                  intro k' hk'
                  rcases List.mem_singleton.mp hk' with rfl
                  exact hkOk
              | vundefined => simp at hc
              | vnull => simp at hc
              | vbool b => simp at hc
              | vint n => simp at hc
              | vstr s => simp at hc
            · -- primitive comparison
              split at hc
              · rcases List.mem_singleton.mp hc with rfl
                exact ⟨[], by simp, by simp⟩
              · simp at hc

/-- The relation that any two records `c1` (earlier) and `c2` (later) of
one differ run satisfy: records sharing a path are both array-length
records, and no later record's path strictly extends an earlier
array-length record's path (all records below an array are emitted before
its `A` records). -/
def diffRel (c1 c2 : Change) : Prop :=
  (c1.path = c2.path → c1.kind = .A ∧ c2.kind = .A) ∧
    ¬(c1.path ≠ c2.path ∧ (c1.path <+: c2.path) ∧ c1.kind = .A)

theorem diffRel_AA (path : List String) (o1 o2 o3 o4 : Option Val) :
    diffRel ⟨.A, path, o1, o2⟩ ⟨.A, path, o3, o4⟩ :=
  ⟨fun _ => ⟨rfl, rfl⟩, fun h => h.1 rfl⟩

theorem pairwise_replicate_rel {α : Type} {R : α → α → Prop} {a : α}
    (h : R a a) : ∀ n, (List.replicate n a).Pairwise R
  | 0 => List.Pairwise.nil
  | n + 1 => by
    rw [List.replicate_succ]
    exact List.Pairwise.cons
      (fun b hb => by rw [List.eq_of_mem_replicate hb]; exact h)
      (pairwise_replicate_rel h n)

theorem append_cons_ne {α : Type} (path : List α) (k : α) (s : List α) :
    path ++ (k :: s) ≠ path := by
  intro h
  have h2 : path ++ (k :: s) = path ++ [] := by simpa using h
  exact List.cons_ne_nil k s (List.append_cancel_left h2)

theorem append_cons_not_pref {α : Type} (path : List α) (k : α)
    (s : List α) : ¬(path ++ (k :: s) <+: path) := by
  intro h
  have h2 : path ++ (k :: s) <+: path ++ [] := by simpa using h
  have h3 := (List.prefix_append_right_inj path).mp h2
  exact List.cons_ne_nil k s (List.prefix_nil.mp h3)

theorem extend_eq_head {path : List String} {k1 k2 : String}
    {s1 s2 : List String} (h : path ++ (k1 :: s1) = path ++ (k2 :: s2)) :
    k1 = k2 := by
  have h2 := List.append_cancel_left h
  injection h2

theorem extend_pref_head {path : List String} {k1 k2 : String}
    {s1 s2 : List String} (h : path ++ (k1 :: s1) <+: path ++ (k2 :: s2)) :
    k1 = k2 := by
  have h2 := (List.prefix_append_right_inj path).mp h
  exact (List.cons_prefix_cons.mp h2).1

theorem diffRel_of_head_ne {c1 c2 : Change} {path : List String}
    {k1 k2 : String} {s1 s2 : List String}
    (h1 : c1.path = path ++ (k1 :: s1)) (h2 : c2.path = path ++ (k2 :: s2))
    (hne : k1 ≠ k2) : diffRel c1 c2 := by
  constructor
  · intro heq
    rw [h1, h2] at heq
    exact absurd (extend_eq_head heq) hne
  · intro h
    obtain ⟨_, hpre, _⟩ := h
    rw [h1, h2] at hpre
    exact hne (extend_pref_head hpre)

theorem diffRel_extend_base {c1 c2 : Change} {path : List String}
    {k : String} {s : List String}
    (h1 : c1.path = path ++ (k :: s)) (h2 : c2.path = path) :
    diffRel c1 c2 := by
  constructor
  · intro heq
    rw [h1, h2] at heq
    exact absurd heq (append_cons_ne path k s)
  · intro h
    obtain ⟨_, hpre, _⟩ := h
    rw [h1, h2] at hpre
    exact append_cons_not_pref path k s hpre

theorem diffF_path_extend {fuel : Nat} {l r : Val} {path : List String}
    {k : String} {c : Change}
    (hl : l = .vundefined ∨ WFVal l = true)
    (hr : r = .vundefined ∨ WFVal r = true)
    (hc : c ∈ diffF fuel l r (path ++ [k])) :
    ∃ s, c.path = path ++ (k :: s) := by
  obtain ⟨s, hs, _⟩ := diffF_path_shape fuel l r (path ++ [k]) c hl hr hc
  refine ⟨s, ?_⟩
  rw [hs, List.append_assoc]
  rfl

/-- Any differ run on well-formed (or undefined) sides satisfies
`diffRel` pairwise, in emission order. -/
theorem diffF_pairwise :
    ∀ (fuel : Nat) (l r : Val) (path : List String),
      (l = .vundefined ∨ WFVal l = true) →
      (r = .vundefined ∨ WFVal r = true) →
      (diffF fuel l r path).Pairwise diffRel := by
  intro fuel
  induction fuel with
  | zero =>
    intro l r path _ _
    simp [diffF]
  | succ fuel ih =>
    intro l r path hl hr
    have hrsub : ∀ k, lookupD r k = .vundefined ∨
        WFVal (lookupD r k) = true := by
      intro k
      rcases hr with rfl | h0
      · exact Or.inl rfl
      · exact WF_lookupD _ h0
    have hpknd : (keysOf r).Nodup := by
      rcases hr with rfl | h0
      · exact List.nodup_nil
      · exact keysOf_nodup h0
    simp only [diffF]
    split
    · split
      · exact List.pairwise_singleton _ _
      · exact List.Pairwise.nil
    · split
      · exact List.pairwise_singleton _ _
      · split
        · exact List.pairwise_singleton _ _
        · split
          · split
            · exact List.pairwise_singleton _ _
            · exact List.Pairwise.nil
          · split
            · -- object branch
              cases l with
              | varr xs =>
                have hlw : WFVal (Val.varr xs) = true := by
                  rcases hl with h0 | h0
                  · cases h0
                  · exact h0
                have hlwl : WFList xs = true := by
                  rw [show WFVal (Val.varr xs) = WFList xs from rfl] at hlw
                  exact hlw
                have hlsub : ∀ e : Nat × Val, e ∈ xs.enum →
                    (e.2 = Val.vundefined ∨ WFVal e.2 = true) := by
                  intro e he
                  exact Or.inr (WFList_mem hlwl
                    (List.get?_mem (List.mem_enum_iff_get?.mp he)))
                cases hLr : arrLenI r with
                | some L =>
                  simp only []
                  refine List.pairwise_append.mpr ⟨?_, ?_, ?_⟩
                  · refine List.pairwise_flatten.mpr ⟨?_, ?_⟩
                    · intro l' hl'
                      obtain ⟨e, he, rfl⟩ := List.mem_map.mp hl'
                      by_cases hge : (e.1 : Int) ≥ L
                      · rw [if_pos hge]
                        exact List.pairwise_singleton _ _
                      · rw [if_neg hge]
                        exact ih _ _ _ (hlsub e he) (hrsub _)
                    · refine List.pairwise_map.mpr
                        ((List.Pairwise.and_mem.mp (pairwise_fst_lt_enum xs)).imp ?_)
                      rintro e1 e2 ⟨he1, he2, hlt⟩ c1 hc1 c2 hc2
                      by_cases hge1 : (e1.1 : Int) ≥ L
                      · by_cases hge2 : (e2.1 : Int) ≥ L
                        · rw [if_pos hge1] at hc1
                          rw [if_pos hge2] at hc2
                          rcases List.mem_singleton.mp hc1 with rfl
                          rcases List.mem_singleton.mp hc2 with rfl
                          exact diffRel_AA path none none none none
                        · exfalso
                          omega
                      · by_cases hge2 : (e2.1 : Int) ≥ L
                        · rw [if_neg hge1] at hc1
                          rw [if_pos hge2] at hc2
                          rcases List.mem_singleton.mp hc2 with rfl
                          obtain ⟨s1, hp1⟩ :=
                            diffF_path_extend (hlsub e1 he1) (hrsub _) hc1
                          exact diffRel_extend_base hp1 rfl
                        · rw [if_neg hge1] at hc1
                          rw [if_neg hge2] at hc2
                          obtain ⟨s1, hp1⟩ :=
                            diffF_path_extend (hlsub e1 he1) (hrsub _) hc1
                          obtain ⟨s2, hp2⟩ :=
                            diffF_path_extend (hlsub e2 he2) (hrsub _) hc2
                          refine diffRel_of_head_ne hp1 hp2 ?_
                          intro h
                          exact absurd (natKey_inj h) (Nat.ne_of_lt hlt)
                  · exact pairwise_replicate_rel
                      (diffRel_AA path none none none none) _
                  · intro c1 h1 c2 h2
                    rcases List.eq_of_mem_replicate h2 with rfl
                    obtain ⟨blk, hblk, hc1⟩ := List.mem_flatten.mp h1
                    obtain ⟨e, he, rfl⟩ := List.mem_map.mp hblk
                    by_cases hge : (e.1 : Int) ≥ L
                    · rw [if_pos hge] at hc1
                      rcases List.mem_singleton.mp hc1 with rfl
                      exact diffRel_AA path none none none none
                    · rw [if_neg hge] at hc1
                      obtain ⟨s1, hp1⟩ :=
                        diffF_path_extend (hlsub e he) (hrsub _) hc1
                      exact diffRel_extend_base hp1 rfl
                | none =>
                  simp only []
                  rw [List.append_nil]
                  refine List.pairwise_flatten.mpr ⟨?_, ?_⟩
                  · intro l' hl'
                    obtain ⟨e, he, rfl⟩ := List.mem_map.mp hl'
                    exact ih _ _ _ (hlsub e he) (hrsub _)
                  · refine List.pairwise_map.mpr
                      ((List.Pairwise.and_mem.mp (pairwise_fst_lt_enum xs)).imp ?_)
                    rintro e1 e2 ⟨he1, he2, hlt⟩ c1 hc1 c2 hc2
                    obtain ⟨s1, hp1⟩ :=
                      diffF_path_extend (hlsub e1 he1) (hrsub _) hc1
                    obtain ⟨s2, hp2⟩ :=
                      diffF_path_extend (hlsub e2 he2) (hrsub _) hc2
                    refine diffRel_of_head_ne hp1 hp2 ?_
                    intro h
                    exact absurd (natKey_inj h) (Nat.ne_of_lt hlt)
              | vobj fs =>
                have hlw : WFVal (Val.vobj fs) = true := by
                  rcases hl with h0 | h0
                  · cases h0
                  · exact h0
                have hshapeA : ∀ (k : String) (c' : Change), c' ∈
                    (if (keysOf r).contains k = true then
                      diffF fuel (lookupD (Val.vobj fs) k) (lookupD r k)
                        (path ++ [k])
                    else
                      if lookupD (Val.vobj fs) k = Val.vundefined then []
                      else [Change.mk .D (path ++ [k])
                        (some (lookupD (Val.vobj fs) k)) none]) →
                    ∃ s, c'.path = path ++ (k :: s) := by
                  intro k c' hc'
                  by_cases hcont : (keysOf r).contains k = true
                  · rw [if_pos hcont] at hc'
                    exact diffF_path_extend (WF_lookupD _ hlw) (hrsub _) hc'
                  · rw [if_neg hcont] at hc'
                    by_cases hu : lookupD (Val.vobj fs) k = Val.vundefined
                    · rw [if_pos hu] at hc'
                      simp at hc'
                    · rw [if_neg hu] at hc'
                      rcases List.mem_singleton.mp hc' with rfl
                      exact ⟨[], rfl⟩
                have hshapeP : ∀ (k : String) (c' : Change), c' ∈
                    (if lookupD r k = Val.vundefined then []
                     else [Change.mk .N (path ++ [k]) none
                       (some (lookupD r k))]) →
                    ∃ s, c'.path = path ++ (k :: s) := by
                  intro k c' hc'
                  by_cases hu : lookupD r k = Val.vundefined
                  · rw [if_pos hu] at hc'
                    simp at hc'
                  · rw [if_neg hu] at hc'
                    rcases List.mem_singleton.mp hc' with rfl
                    exact ⟨[], rfl⟩
                refine List.pairwise_append.mpr ⟨?_, ?_, ?_⟩
                · refine List.pairwise_flatten.mpr ⟨?_, ?_⟩
                  · intro l' hl'
                    obtain ⟨k, hk, rfl⟩ := List.mem_map.mp hl'
                    by_cases hcont : (keysOf r).contains k = true
                    · rw [if_pos hcont]
                      exact ih _ _ _ (WF_lookupD _ hlw) (hrsub _)
                    · rw [if_neg hcont]
                      by_cases hu : lookupD (Val.vobj fs) k = Val.vundefined
                      · rw [if_pos hu]
                        exact List.Pairwise.nil
                      · rw [if_neg hu]
                        exact List.pairwise_singleton _ _
                  · refine List.pairwise_map.mpr
                      ((keysOf_nodup hlw).imp ?_)
                    intro k1 k2 hne c1 hc1 c2 hc2
                    obtain ⟨s1, hp1⟩ := hshapeA k1 c1 hc1
                    obtain ⟨s2, hp2⟩ := hshapeA k2 c2 hc2
                    exact diffRel_of_head_ne hp1 hp2 hne
                · refine List.pairwise_flatten.mpr ⟨?_, ?_⟩
                  · intro l' hl'
                    obtain ⟨k, hk, rfl⟩ := List.mem_map.mp hl'
                    by_cases hu : lookupD r k = Val.vundefined
                    · rw [if_pos hu]
                      exact List.Pairwise.nil
                    · rw [if_neg hu]
                      exact List.pairwise_singleton _ _
                  · refine List.pairwise_map.mpr
                      ((hpknd.filter _).imp ?_)
                    intro k1 k2 hne c1 hc1 c2 hc2
                    obtain ⟨s1, hp1⟩ := hshapeP k1 c1 hc1
                    obtain ⟨s2, hp2⟩ := hshapeP k2 c2 hc2
                    exact diffRel_of_head_ne hp1 hp2 hne
                · intro c1 h1 c2 h2
                  obtain ⟨blk1, hblk1, hc1⟩ := List.mem_flatten.mp h1
                  obtain ⟨k1, hk1, rfl⟩ := List.mem_map.mp hblk1
                  obtain ⟨blk2, hblk2, hc2'⟩ := List.mem_flatten.mp h2
                  obtain ⟨k2, hk2f, rfl⟩ := List.mem_map.mp hblk2
                  have hk2 := List.mem_filter.mp hk2f
                  have hnc : (keysOf (Val.vobj fs)).contains k2 = false := by
                    have := hk2.2
                    simpa using this
                  have hne : k1 ≠ k2 := by
                    intro h
                    subst h
                    have hcm : (keysOf (Val.vobj fs)).contains k1 = true :=
                      List.elem_eq_true_of_mem hk1
                    rw [hnc] at hcm
                    cases hcm
                  obtain ⟨s1, hp1⟩ := hshapeA k1 c1 hc1
                  obtain ⟨s2, hp2⟩ := hshapeP k2 c2 hc2'
                  exact diffRel_of_head_ne hp1 hp2 hne
              | vdate tt =>
                refine List.pairwise_flatten.mpr ⟨?_, ?_⟩
                · intro l' hl'
                  obtain ⟨k, hk, rfl⟩ := List.mem_map.mp hl'
                  by_cases hu : lookupD r k = Val.vundefined
                  · rw [if_pos hu]
                    exact List.Pairwise.nil
                  · rw [if_neg hu]
                    exact List.pairwise_singleton _ _
                · refine List.pairwise_map.mpr (hpknd.imp ?_)
                  intro k1 k2 hne c1 hc1 c2 hc2
                  have hshape : ∀ (k : String) (c' : Change), c' ∈
                      (if lookupD r k = Val.vundefined then []
                       else [Change.mk .N (path ++ [k]) none
                         (some (lookupD r k))]) →
                      ∃ s, c'.path = path ++ (k :: s) := by
                    intro k c' hc'
                    by_cases hu : lookupD r k = Val.vundefined
                    · rw [if_pos hu] at hc'
                      simp at hc'
                    · rw [if_neg hu] at hc'
                      rcases List.mem_singleton.mp hc' with rfl
                      exact ⟨[], rfl⟩
                  obtain ⟨s1, hp1⟩ := hshape k1 c1 hc1
                  obtain ⟨s2, hp2⟩ := hshape k2 c2 hc2
                  exact diffRel_of_head_ne hp1 hp2 hne
              | vundefined => simp
              | vnull => simp
              | vbool b => simp
              | vint n => simp
              | vstr s => simp
            · split
              · exact List.pairwise_singleton _ _
              · exact List.Pairwise.nil

theorem lookupStr_setField_self :
    ∀ (m : List (String × Val)) (k : String) (v : Val),
      lookupStr (setField m k v) k = some v
  | [], k, v => by simp [setField, lookupStr]
  | (l, w) :: rest, k, v => by
    by_cases hlk : l = k
    · subst hlk
      simp [setField, lookupStr]
    · have hne : (l == k) = false := by simp [hlk]
      simp only [setField, hne, Bool.false_eq_true, if_false]
      simp only [lookupStr, List.find?, hne]
      exact lookupStr_setField_self rest k v

theorem lookupStr_setField_other :
    ∀ (m : List (String × Val)) (k k' : String) (v : Val), k' ≠ k →
      lookupStr (setField m k' v) k = lookupStr m k
  | [], k, k', v, hne => by
    have h : (k' == k) = false := by simp [hne]
    simp [setField, lookupStr, List.find?, h]
  | (l, w) :: rest, k, k', v, hne => by
    by_cases hlk : l = k'
    · have h : (l == k') = true := by simp [hlk]
      simp only [setField, h, if_true]
      have hlk2 : l ≠ k := by rw [hlk]; exact hne
      have h2 : (l == k) = false := by simp [hlk2]
      simp [lookupStr, List.find?, h2]
    · have h : (l == k') = false := by simp [hlk]
      simp only [setField, h, Bool.false_eq_true, if_false]
      by_cases hk : l = k
      · subst hk
        simp [lookupStr, List.find?]
      · have h2 : (l == k) = false := by simp [hk]
        simp only [lookupStr, List.find?, h2]
        exact lookupStr_setField_other rest k k' v hne

theorem lookupStr_filter :
    ∀ (m : List (String × Val)) (P : String × Val → Bool) (k : String)
      (v : Val), lookupStr m k = some v → P (k, v) = true →
      lookupStr (m.filter P) k = some v
  | [], P, k, v, h, _ => by simp [lookupStr] at h
  | (l, w) :: rest, P, k, v, h, hP => by
    by_cases hlk : l = k
    · have heq : (l == k) = true := by simp [hlk]
      simp only [lookupStr, List.find?, heq] at h
      simp only [Option.map, Option.some.injEq] at h
      have hPl : P (l, w) = true := by rw [hlk, h]; exact hP
      rw [List.filter_cons, if_pos (by simpa using hPl)]
      simp [lookupStr, List.find?, heq, h]
    · have hne : (l == k) = false := by simp [hlk]
      simp only [lookupStr, List.find?, hne] at h
      rw [List.filter_cons]
      by_cases hPl : P (l, w) = true
      · rw [if_pos (by simpa using hPl)]
        simp only [lookupStr, List.find?, hne]
        exact lookupStr_filter rest P k v h hP
      · rw [if_neg (by simpa using hPl)]
        exact lookupStr_filter rest P k v h hP

theorem mem_keys_setField :
    ∀ (m : List (String × Val)) (k : String) (v : Val) (k' : String),
      k' ∈ (setField m k v).map Prod.fst →
      k' ∈ m.map Prod.fst ∨ k' = k
  | [], k, v, k', h => by
    simp [setField] at h
    exact Or.inr h
  | (l, w) :: rest, k, v, k', h => by
    by_cases hlk : l = k
    · subst hlk
      have heq : (l == l) = true := by simp
      simp only [setField, heq, if_true] at h
      simp only [List.map_cons, List.mem_cons] at h
      rcases h with h0 | h0
      · exact Or.inr h0
      · exact Or.inl (by
          simp only [List.map_cons, List.mem_cons]
          exact Or.inr h0)
    · have hne : (l == k) = false := by simp [hlk]
      simp only [setField, hne, Bool.false_eq_true, if_false] at h
      rcases List.mem_cons.mp h with h0 | h0
      · exact Or.inl (by simp [h0])
      · rcases mem_keys_setField rest k v k' h0 with h1 | h1
        · exact Or.inl (List.mem_cons_of_mem _ h1)
        · exact Or.inr h1

theorem indexNested_self_false (k : String) : indexNested k k = false := by
  cases h : indexNested k k with
  | false => rfl
  | true =>
    exfalso
    simp only [indexNested, Bool.and_eq_true] at h
    have h1 := (strPrefix_iff _ _).mp h.1
    have := h1.length_le
    rw [data_append_dot] at this
    simp at this

theorem purgeBucket_some_of_lookup {a k : String} {v : Val}
    {m : List (String × Val)} (h : lookupStr m k = some v)
    (hni : indexNested k a = false) :
    ∃ m', purgeBucket a (some m) = some m' ∧ lookupStr m' k = some v := by
  have hl : lookupStr (m.filter fun kv => !(indexNested kv.1 a)) k =
      some v :=
    lookupStr_filter _ _ _ _ h (by simp [hni])
  refine ⟨m.filter fun kv => !(indexNested kv.1 a), ?_, hl⟩
  simp only [purgeBucket]
  rw [if_neg ?_]
  intro he
  rw [List.isEmpty_iff] at he
  rw [he] at hl
  simp [lookupStr] at hl

theorem purgeBucket_keys {a : String} {b : Option (List (String × Val))}
    {k : String} (h : k ∈ ((purgeBucket a b).getD []).map Prod.fst) :
    k ∈ (b.getD []).map Prod.fst ∧ indexNested k a = false := by
  cases b with
  | none => simp [purgeBucket] at h
  | some m =>
    simp only [purgeBucket] at h
    split at h
    · simp at h
    · simp only [Option.getD_some] at h
      obtain ⟨p, hp, rfl⟩ := List.mem_map.mp h
      have hpf := List.mem_filter.mp hp
      refine ⟨List.mem_map.mpr ⟨p, hpf.1, rfl⟩, ?_⟩
      simpa using hpf.2

theorem updateStep_eq (st : List (String × Val) ×
    Option (List (String × Val)) × List String) (c : Change) :
    updateStep st c =
      (if c.kind = .N ∨ c.kind = .E
        then setField st.1 (joinDots c.path) (c.rhs.getD .vundefined)
        else st.1,
       if c.kind = .D
        then some (setField (st.2.1.getD []) (joinDots c.path) (.vstr ""))
        else st.2.1,
       if c.kind = .A then addKey st.2.2 (joinDots c.path) else st.2.2) := by
  obtain ⟨m, u, a⟩ := st
  cases hk : c.kind <;> simp [updateStep, hk]

/-- The first pass of `getUpdateQuery` acts on its three state components
independently. -/
theorem updateStep_fold :
    ∀ (cs : List Change) (st : List (String × Val) ×
      Option (List (String × Val)) × List String),
      cs.foldl updateStep st =
        (cs.foldl (fun m c => if c.kind = .N ∨ c.kind = .E
            then setField m (joinDots c.path) (c.rhs.getD .vundefined)
            else m) st.1,
         cs.foldl (fun u c => if c.kind = .D
            then some (setField (u.getD []) (joinDots c.path) (.vstr ""))
            else u) st.2.1,
         cs.foldl (fun a c => if c.kind = .A
            then addKey a (joinDots c.path) else a) st.2.2)
  | [], st => rfl
  | c :: cs, st => by
    rw [List.foldl_cons, List.foldl_cons, List.foldl_cons, List.foldl_cons,
      updateStep_fold cs (updateStep st c), updateStep_eq]

theorem setfold_lookup :
    ∀ (cs : List Change) (m : List (String × Val)) (j : String) (v : Val),
      lookupStr m j = some v →
      (∀ c ∈ cs, (c.kind = .N ∨ c.kind = .E) → joinDots c.path = j →
        c.rhs.getD .vundefined = v) →
      lookupStr (cs.foldl (fun m c => if c.kind = .N ∨ c.kind = .E
        then setField m (joinDots c.path) (c.rhs.getD .vundefined)
        else m) m) j = some v
  | [], m, j, v, hbase, _ => hbase
  | c :: cs, m, j, v, hbase, hall => by
    rw [List.foldl_cons]
    refine setfold_lookup cs _ j v ?_ (fun c' hc' => hall c' (by simp [hc']))
    by_cases hne : c.kind = .N ∨ c.kind = .E
    · rw [if_pos hne]
      by_cases hj : joinDots c.path = j
      · rw [hj, hall c (by simp) hne hj]
        exact lookupStr_setField_self _ _ _
      · rw [lookupStr_setField_other _ _ _ _ hj]
        exact hbase
    · rw [if_neg hne]
      exact hbase

theorem setfold_lookup_of_write :
    ∀ (cs : List Change) (m : List (String × Val)) (j : String) (v : Val),
      (∃ c ∈ cs, (c.kind = .N ∨ c.kind = .E) ∧ joinDots c.path = j) →
      (∀ c ∈ cs, (c.kind = .N ∨ c.kind = .E) → joinDots c.path = j →
        c.rhs.getD .vundefined = v) →
      lookupStr (cs.foldl (fun m c => if c.kind = .N ∨ c.kind = .E
        then setField m (joinDots c.path) (c.rhs.getD .vundefined)
        else m) m) j = some v
  | [], m, j, v, hw, _ => by simp at hw
  | c :: cs, m, j, v, hw, hall => by
    rw [List.foldl_cons]
    by_cases hcw : (c.kind = .N ∨ c.kind = .E) ∧ joinDots c.path = j
    · refine setfold_lookup cs _ j v ?_
        (fun c' hc' => hall c' (by simp [hc']))
      rw [if_pos hcw.1, hcw.2, hall c (by simp) hcw.1 hcw.2]
      exact lookupStr_setField_self _ _ _
    · obtain ⟨c0, hc0, hc0w⟩ := hw
      rcases List.mem_cons.mp hc0 with rfl | hc0'
      · exact absurd hc0w hcw
      · exact setfold_lookup_of_write cs _ j v ⟨c0, hc0', hc0w⟩
          (fun c' hc' => hall c' (by simp [hc']))

theorem ufold_lookup :
    ∀ (cs : List Change) (u : Option (List (String × Val))) (j : String),
      (lookupStr (u.getD []) j = some (Val.vstr "") ∨
        ∃ c ∈ cs, c.kind = .D ∧ joinDots c.path = j) →
      lookupStr ((cs.foldl (fun u c => if c.kind = .D
        then some (setField (u.getD []) (joinDots c.path) (.vstr ""))
        else u) u).getD []) j = some (Val.vstr "")
  | [], u, j, h => by
    rcases h with h | h
    · exact h
    · simp at h
  | c :: cs, u, j, h => by
    rw [List.foldl_cons]
    refine ufold_lookup cs _ j ?_
    by_cases hD : c.kind = .D
    · rw [if_pos hD]
      by_cases hj : joinDots c.path = j
      · rw [hj]
        exact Or.inl (by simpa using lookupStr_setField_self _ _ _)
      · rcases h with h | h
        · refine Or.inl ?_
          simp only [Option.getD_some]
          rw [lookupStr_setField_other _ _ _ _ hj]
          exact h
        · obtain ⟨c0, hc0, hc0w⟩ := h
          rcases List.mem_cons.mp hc0 with rfl | hc0'
          · exact absurd hc0w.2 hj
          · exact Or.inr ⟨c0, hc0', hc0w⟩
    · rw [if_neg hD]
      rcases h with h | h
      · exact Or.inl h
      · obtain ⟨c0, hc0, hc0w⟩ := h
        rcases List.mem_cons.mp hc0 with rfl | hc0'
        · exact absurd hc0w.1 hD
        · exact Or.inr ⟨c0, hc0', hc0w⟩

theorem setfold_keys :
    ∀ (cs : List Change) (m : List (String × Val)) (j : String),
      j ∈ (cs.foldl (fun m c => if c.kind = .N ∨ c.kind = .E
        then setField m (joinDots c.path) (c.rhs.getD .vundefined)
        else m) m).map Prod.fst →
      j ∈ m.map Prod.fst ∨
        ∃ c ∈ cs, (c.kind = .N ∨ c.kind = .E) ∧ joinDots c.path = j
  | [], m, j, h => Or.inl h
  | c :: cs, m, j, h => by
    rw [List.foldl_cons] at h
    rcases setfold_keys cs _ j h with h1 | h1
    · by_cases hne : c.kind = .N ∨ c.kind = .E
      · rw [if_pos hne] at h1
        rcases mem_keys_setField _ _ _ _ h1 with h2 | h2
        · exact Or.inl h2
        · exact Or.inr ⟨c, by simp, hne, h2.symm⟩
      · rw [if_neg hne] at h1
        exact Or.inl h1
    · obtain ⟨c0, hc0, hc0p⟩ := h1
      exact Or.inr ⟨c0, List.mem_cons_of_mem _ hc0, hc0p⟩

theorem ufold_keys :
    ∀ (cs : List Change) (u : Option (List (String × Val))) (j : String),
      j ∈ ((cs.foldl (fun u c => if c.kind = .D
        then some (setField (u.getD []) (joinDots c.path) (.vstr ""))
        else u) u).getD []).map Prod.fst →
      j ∈ (u.getD []).map Prod.fst ∨
        ∃ c ∈ cs, c.kind = .D ∧ joinDots c.path = j
  | [], u, j, h => Or.inl h
  | c :: cs, u, j, h => by
    rw [List.foldl_cons] at h
    rcases ufold_keys cs _ j h with h1 | h1
    · by_cases hD : c.kind = .D
      · rw [if_pos hD] at h1
        simp only [Option.getD_some] at h1
        rcases mem_keys_setField _ _ _ _ h1 with h2 | h2
        · exact Or.inl h2
        · exact Or.inr ⟨c, by simp, hD, h2.symm⟩
      · rw [if_neg hD] at h1
        exact Or.inl h1
    · obtain ⟨c0, hc0, hc0p⟩ := h1
      exact Or.inr ⟨c0, List.mem_cons_of_mem _ hc0, hc0p⟩

theorem mem_addKey {x k : String} {a : List String} :
    x ∈ addKey a k ↔ x ∈ a ∨ x = k := by
  by_cases hc : a.contains k = true
  · simp only [addKey, hc, if_true]
    constructor
    · exact Or.inl
    · intro h
      rcases h with h | rfl
      · exact h
      · exact List.mem_of_elem_eq_true hc
  · simp only [addKey, hc, if_false]
    simp

theorem addKey_nodup {k : String} {a : List String} (h : a.Nodup) :
    (addKey a k).Nodup := by
  by_cases hc : a.contains k = true
  · have he : addKey a k = a := by
      simp only [addKey]
      rw [if_pos hc]
    rw [he]
    exact h
  · have he : addKey a k = a ++ [k] := by
      simp only [addKey]
      rw [if_neg hc]
    rw [he, List.nodup_append]
    refine ⟨h, List.nodup_singleton k, ?_⟩
    intro x hx hk
    rcases List.mem_singleton.mp hk with rfl
    exact absurd (List.elem_eq_true_of_mem hx) (by simpa using hc)

theorem afold_mem :
    ∀ (cs : List Change) (acc : List String) (x : String),
      x ∈ cs.foldl (fun a c => if c.kind = .A
        then addKey a (joinDots c.path) else a) acc ↔
      x ∈ acc ∨ ∃ c ∈ cs, c.kind = .A ∧ joinDots c.path = x
  | [], acc, x => by simp
  | c :: cs, acc, x => by
    rw [List.foldl_cons, afold_mem cs _ x]
    by_cases hA : c.kind = .A
    · rw [if_pos hA]
      rw [mem_addKey]
      constructor
      · intro h
        rcases h with (h | rfl) | h
        · exact Or.inl h
        · exact Or.inr ⟨c, by simp, hA, rfl⟩
        · obtain ⟨c0, hc0, hc0p⟩ := h
          exact Or.inr ⟨c0, List.mem_cons_of_mem _ hc0, hc0p⟩
      · intro h
        rcases h with h | ⟨c0, hc0, hc0p⟩
        · exact Or.inl (Or.inl h)
        · rcases List.mem_cons.mp hc0 with rfl | hc0'
          · exact Or.inl (Or.inr hc0p.2.symm)
          · exact Or.inr ⟨c0, hc0', hc0p⟩
    · rw [if_neg hA]
      constructor
      · intro h
        rcases h with h | ⟨c0, hc0, hc0p⟩
        · exact Or.inl h
        · exact Or.inr ⟨c0, List.mem_cons_of_mem _ hc0, hc0p⟩
      · intro h
        rcases h with h | ⟨c0, hc0, hc0p⟩
        · exact Or.inl h
        · rcases List.mem_cons.mp hc0 with rfl | hc0'
          · exact absurd hc0p.1 hA
          · exact Or.inr ⟨c0, hc0', hc0p⟩

theorem afold_nodup :
    ∀ (cs : List Change) (acc : List String), acc.Nodup →
      (cs.foldl (fun a c => if c.kind = .A
        then addKey a (joinDots c.path) else a) acc).Nodup
  | [], acc, h => h
  | c :: cs, acc, h => by
    rw [List.foldl_cons]
    refine afold_nodup cs _ ?_
    by_cases hA : c.kind = .A
    · rw [if_pos hA]
      exact addKey_nodup h
    · rw [if_neg hA]
      exact h

theorem afold_pairwise (R : String → String → Prop) :
    ∀ (cs : List Change) (acc : List String),
      acc.Pairwise R →
      (∀ x ∈ acc, ∀ c ∈ cs, c.kind = .A → R x (joinDots c.path)) →
      cs.Pairwise (fun c1 c2 => c1.kind = .A → c2.kind = .A →
        R (joinDots c1.path) (joinDots c2.path)) →
      (cs.foldl (fun a c => if c.kind = .A
        then addKey a (joinDots c.path) else a) acc).Pairwise R
  | [], acc, hacc, _, _ => hacc
  | c :: cs, acc, hacc, hcross, hcs => by
    rw [List.foldl_cons]
    have hcs' := (List.pairwise_cons.mp hcs)
    by_cases hA : c.kind = .A
    · rw [if_pos hA]
      by_cases hc : acc.contains (joinDots c.path) = true
      · rw [show addKey acc (joinDots c.path) = acc from by
          simp only [addKey]
          rw [if_pos hc]]
        exact afold_pairwise R cs acc hacc
          (fun x hx c' hc' => hcross x hx c' (List.mem_cons_of_mem _ hc'))
          hcs'.2
      · rw [show addKey acc (joinDots c.path) = acc ++ [joinDots c.path]
          from by
          simp only [addKey]
          rw [if_neg hc]]
        refine afold_pairwise R cs _ ?_ ?_ hcs'.2
        · rw [List.pairwise_append]
          refine ⟨hacc, List.pairwise_singleton _ _, ?_⟩
          intro x hx y hy
          rcases List.mem_singleton.mp hy with rfl
          exact hcross x hx c (by simp) hA
        · intro x hx c' hc' hA'
          rcases List.mem_append.mp hx with hx' | hx'
          · exact hcross x hx' c' (List.mem_cons_of_mem _ hc') hA'
          · rcases List.mem_singleton.mp hx' with rfl
            exact hcs'.1 c' hc' hA hA'
    · rw [if_neg hA]
      exact afold_pairwise R cs acc hacc
        (fun x hx c' hc' => hcross x hx c' (List.mem_cons_of_mem _ hc'))
        hcs'.2

theorem arrayPathStep_some {working : List (String × Val)} {q : UpdateQuery}
    {p : String} {q1 : UpdateQuery}
    (h : arrayPathStep working q p = some q1) :
    ∃ m', purgeBucket p q.set = some m' ∧
      q1 = ⟨some (setField m' p (instGet (.vobj working) p .vundefined)),
        purgeBucket p q.unset⟩ := by
  simp only [arrayPathStep] at h
  cases hs : purgeBucket p q.set with
  | none =>
    rw [hs] at h
    simp at h
  | some m' =>
    rw [hs] at h
    simp only [Option.some.injEq] at h
    exact ⟨m', rfl, h.symm⟩

theorem arrayPathFold_keep (working : List (String × Val)) :
    ∀ (ps : List String) (q : UpdateQuery) (j : String) (v : Val)
      (q' : UpdateQuery),
      lookupStr (q.set.getD []) j = some v →
      (∀ p ∈ ps, indexNested j p = false) →
      j ∉ ps →
      ps.foldlM (arrayPathStep working) q = some q' →
      lookupStr (q'.set.getD []) j = some v
  | [], q, j, v, q', hset, _, _, hfold => by
    simp only [List.foldlM_nil] at hfold
    injection hfold with hq
    rw [← hq]
    exact hset
  | p :: ps, q, j, v, q', hset, hni, hnj, hfold => by
    rw [List.foldlM_cons] at hfold
    obtain ⟨q1, hq1, hrest⟩ := Option.bind_eq_some.mp hfold
    obtain ⟨m', hm', rfl⟩ := arrayPathStep_some hq1
    cases hqs : q.set with
    | none =>
      rw [hqs] at hset
      simp [lookupStr] at hset
    | some m =>
      rw [hqs] at hset hm'
      simp only [Option.getD_some] at hset
      obtain ⟨m'', hm'', hl⟩ :=
        purgeBucket_some_of_lookup hset (hni p (by simp))
      have hmm : m' = m'' := by
        have := hm'.symm.trans hm''
        injection this
      have hpj : p ≠ j := fun h => hnj (by simp [h])
      refine arrayPathFold_keep working ps _ j v q' ?_
        (fun p' hp' => hni p' (List.mem_cons_of_mem _ hp'))
        (fun hj => hnj (List.mem_cons_of_mem _ hj)) hrest
      simp only [Option.getD_some]
      rw [lookupStr_setField_other _ _ _ _ hpj]
      rw [hmm]
      exact hl

theorem arrayPathFold_keep_unset (working : List (String × Val)) :
    ∀ (ps : List String) (q : UpdateQuery) (j : String) (q' : UpdateQuery),
      lookupStr (q.unset.getD []) j = some (Val.vstr "") →
      (∀ p ∈ ps, indexNested j p = false) →
      ps.foldlM (arrayPathStep working) q = some q' →
      lookupStr (q'.unset.getD []) j = some (Val.vstr "")
  | [], q, j, q', hun, _, hfold => by
    simp only [List.foldlM_nil] at hfold
    injection hfold with hq
    rw [← hq]
    exact hun
  | p :: ps, q, j, q', hun, hni, hfold => by
    rw [List.foldlM_cons] at hfold
    obtain ⟨q1, hq1, hrest⟩ := Option.bind_eq_some.mp hfold
    obtain ⟨m', hm', rfl⟩ := arrayPathStep_some hq1
    cases hqu : q.unset with
    | none =>
      rw [hqu] at hun
      simp [lookupStr] at hun
    | some m =>
      rw [hqu] at hun
      simp only [Option.getD_some] at hun
      obtain ⟨m'', hm'', hl⟩ :=
        purgeBucket_some_of_lookup hun (hni p (by simp))
      refine arrayPathFold_keep_unset working ps _ j q' ?_
        (fun p' hp' => hni p' (List.mem_cons_of_mem _ hp')) hrest
      show lookupStr ((purgeBucket p q.unset).getD []) j = some (Val.vstr "")
      rw [hqu, hm'']
      simpa using hl

theorem arrayfold_clean_one (working : List (String × Val)) :
    ∀ (ps : List String) (q : UpdateQuery) (a : String) (q' : UpdateQuery),
      ps.foldlM (arrayPathStep working) q = some q' →
      (∀ k, (k ∈ (q.set.getD []).map Prod.fst ∨
             k ∈ (q.unset.getD []).map Prod.fst) →
        indexNested k a = false) →
      (∀ p ∈ ps, indexNested p a = false) →
      ∀ k, (k ∈ (q'.set.getD []).map Prod.fst ∨
            k ∈ (q'.unset.getD []).map Prod.fst) → indexNested k a = false
  | [], q, a, q', hfold, ha, _ => by
    simp only [List.foldlM_nil] at hfold
    injection hfold with hq
    rw [← hq]
    exact ha
  | p :: ps, q, a, q', hfold, ha, hps => by
    rw [List.foldlM_cons] at hfold
    obtain ⟨q1, hq1, hrest⟩ := Option.bind_eq_some.mp hfold
    obtain ⟨m', hm', rfl⟩ := arrayPathStep_some hq1
    refine arrayfold_clean_one working ps _ a q' hrest ?_
      (fun p' hp' => hps p' (List.mem_cons_of_mem _ hp'))
    intro k hk
    rcases hk with hk | hk
    · simp only [Option.getD_some] at hk
      rcases mem_keys_setField _ _ _ _ hk with h1 | h1
      · have h2 : k ∈ ((purgeBucket p q.set).getD []).map Prod.fst := by
          rw [hm']
          simpa using h1
        exact ha k (Or.inl (purgeBucket_keys h2).1)
      · rw [h1]
        exact hps p (by simp)
    · exact ha k (Or.inr (purgeBucket_keys hk).1)

theorem getChangeSet_eq (persisted : Option (List (String × Val)))
    (working : List (String × Val)) :
    getChangeSet persisted working =
      diffF (vdepth (.vobj (persisted.getD [])) + 1)
        (.vobj (persisted.getD [])) (.vobj working) [] := rfl

theorem getChangeSet_keyOk {persisted : Option (List (String × Val))}
    {working : List (String × Val)}
    (hp : WFVal (.vobj (persisted.getD [])) = true)
    (hw : WFVal (.vobj working) = true) :
    ∀ c ∈ getChangeSet persisted working, ∀ k ∈ c.path, keyOk k = true := by
  intro c hc
  rw [getChangeSet_eq] at hc
  obtain ⟨s, hs, hsk⟩ :=
    diffF_path_shape _ _ _ [] c (Or.inr hp) (Or.inr hw) hc
  simp only [List.nil_append] at hs
  intro k hk
  exact hsk k (hs ▸ hk)

theorem getChangeSet_pairwise {persisted : Option (List (String × Val))}
    {working : List (String × Val)}
    (hp : WFVal (.vobj (persisted.getD [])) = true)
    (hw : WFVal (.vobj working) = true) :
    (getChangeSet persisted working).Pairwise diffRel := by
  rw [getChangeSet_eq]
  exact diffF_pairwise _ _ _ [] (Or.inr hp) (Or.inr hw)

/-- Two records of one change set at the same path are both array-length
records, unless they are one and the same record. -/
theorem getChangeSet_samepath {persisted : Option (List (String × Val))}
    {working : List (String × Val)}
    (hp : WFVal (.vobj (persisted.getD [])) = true)
    (hw : WFVal (.vobj working) = true) :
    ∀ c1 ∈ getChangeSet persisted working,
      ∀ c2 ∈ getChangeSet persisted working, c1.path = c2.path →
        (c1.kind = .A ∧ c2.kind = .A) ∨ c1 = c2 := by
  have hpw : (getChangeSet persisted working).Pairwise
      (fun c1 c2 => c1.path = c2.path → c1.kind = .A ∧ c2.kind = .A) :=
    (getChangeSet_pairwise hp hw).imp (fun h => h.1)
  have hsym : Symmetric
      (fun c1 c2 : Change => c1.path = c2.path →
        c1.kind = .A ∧ c2.kind = .A) := by
    intro c1 c2 h heq
    exact ⟨(h heq.symm).2, (h heq.symm).1⟩
  intro c1 h1 c2 h2 hpath
  by_cases heq : c1 = c2
  · exact Or.inr heq
  · exact Or.inl (hpw.forall hsym h1 h2 heq hpath)

theorem mem_arrayPathsOf {cs : List Change} {x : String} :
    x ∈ arrayPathsOf cs ↔
      ∃ c ∈ cs, c.kind = .A ∧ joinDots c.path = x := by
  rw [show arrayPathsOf cs = cs.foldl (fun a c => if c.kind = .A
      then addKey a (joinDots c.path) else a) [] from by
    rw [arrayPathsOf, updateStep_fold]]
  rw [afold_mem]
  simp

theorem arrayPathsOf_nodup (cs : List Change) : (arrayPathsOf cs).Nodup := by
  rw [show arrayPathsOf cs = cs.foldl (fun a c => if c.kind = .A
      then addKey a (joinDots c.path) else a) [] from by
    rw [arrayPathsOf, updateStep_fold]]
  exact afold_nodup cs [] List.nodup_nil

/-- In the `arrayPaths` insertion order, a later path is never
index-nested under an earlier one: all records below an array are emitted
(and their paths collected) before that array's own record. -/
theorem arrayPathsOf_pairwise {persisted : Option (List (String × Val))}
    {working : List (String × Val)}
    (hp : WFVal (.vobj (persisted.getD [])) = true)
    (hw : WFVal (.vobj working) = true) :
    (arrayPathsOf (getChangeSet persisted working)).Pairwise
      (fun x y => indexNested y x = false) := by
  rw [show arrayPathsOf (getChangeSet persisted working) =
      (getChangeSet persisted working).foldl (fun a c => if c.kind = .A
        then addKey a (joinDots c.path) else a) [] from by
    rw [arrayPathsOf, updateStep_fold]]
  refine afold_pairwise _ _ [] List.Pairwise.nil (by simp) ?_
  refine (List.Pairwise.and_mem.mp (getChangeSet_pairwise hp hw)).imp ?_
  intro c1 c2 h hA1 hA2
  obtain ⟨h1, h2, hrel⟩ := h
  cases hni : indexNested (joinDots c2.path) (joinDots c1.path) with
  | false => rfl
  | true =>
    exfalso
    have hst := indexNested_strict (getChangeSet_keyOk hp hw c2 h2)
      (getChangeSet_keyOk hp hw c1 h1) hni
    exact hrel.2 ⟨hst.2, hst.1, hA1⟩

theorem getUpdateQuery_empty_iff (persisted : Option (List (String × Val)))
    (working : List (String × Val)) :
    getChangeSet persisted working = [] ↔
      getUpdateQuery persisted working = .ok none := by
  constructor
  · intro h
    simp only [getUpdateQuery]
    rw [if_pos h]
  · intro h
    by_contra hne
    simp only [getUpdateQuery] at h
    rw [if_neg hne] at h
    cases hfold : ((getChangeSet persisted working).foldl updateStep
        ([], none, [])).2.2.foldlM (arrayPathStep working)
        ⟨some ((getChangeSet persisted working).foldl updateStep
          ([], none, [])).1,
         ((getChangeSet persisted working).foldl updateStep
          ([], none, [])).2.1⟩ with
    | some q0 =>
      simp only [hfold] at h
      simp at h
    | none =>
      simp only [hfold] at h
      simp at h

theorem getUpdateQuery_ok_some {persisted : Option (List (String × Val))}
    {working : List (String × Val)} {q : UpdateQuery}
    (h : getUpdateQuery persisted working = .ok (some q)) :
    ((getChangeSet persisted working).foldl updateStep
        ([], none, [])).2.2.foldlM (arrayPathStep working)
      ⟨some ((getChangeSet persisted working).foldl updateStep
        ([], none, [])).1,
       ((getChangeSet persisted working).foldl updateStep
        ([], none, [])).2.1⟩ = some q := by
  simp only [getUpdateQuery] at h
  by_cases hempty : getChangeSet persisted working = []
  · rw [if_pos hempty] at h
    simp at h
  · rw [if_neg hempty] at h
    cases hfold : ((getChangeSet persisted working).foldl updateStep
        ([], none, [])).2.2.foldlM (arrayPathStep working)
        ⟨some ((getChangeSet persisted working).foldl updateStep
          ([], none, [])).1,
         ((getChangeSet persisted working).foldl updateStep
          ([], none, [])).2.1⟩ with
    | some q0 =>
      simp only [hfold] at h
      simp only [Except.ok.injEq, Option.some.injEq] at h
      exact congrArg some h
    | none =>
      simp only [hfold] at h
      simp at h

/-- Claim C1 (amended).  For well-formed persisted and working states:
the update patch of `getUpdateQuery` is `none` exactly when the change
set is empty; and whenever it is produced (rather than crashing with the
`TypeError` exhibited separately), it places every new or edited path
that is not index-nested under an array-change path under `$set` with
the right-hand value, every deleted such path under `$unset`, keeps no
`$set` or `$unset` key index-nested under any array-change path, and
maps every array-change path that is not itself index-nested under
another array-change path to the full current value read from the
working state. -/
theorem update_query_buckets (persisted : Option (List (String × Val)))
    (working : List (String × Val))
    (hp : WFVal (.vobj (persisted.getD [])) = true)
    (hw : WFVal (.vobj working) = true) :
    (getChangeSet persisted working = [] ↔
      getUpdateQuery persisted working = .ok none) ∧
    (∀ q, getUpdateQuery persisted working = .ok (some q) →
      (∀ c ∈ getChangeSet persisted working,
        (c.kind = .N ∨ c.kind = .E) →
        (∀ a ∈ arrayPathsOf (getChangeSet persisted working),
          indexNested (joinDots c.path) a = false) →
        lookupStr (q.set.getD []) (joinDots c.path) =
          some (c.rhs.getD .vundefined)) ∧
      (∀ c ∈ getChangeSet persisted working, c.kind = .D →
        (∀ a ∈ arrayPathsOf (getChangeSet persisted working),
          indexNested (joinDots c.path) a = false) →
        lookupStr (q.unset.getD []) (joinDots c.path) =
          some (.vstr "")) ∧
      (∀ a ∈ arrayPathsOf (getChangeSet persisted working),
        ∀ k, (k ∈ (q.set.getD []).map Prod.fst ∨
              k ∈ (q.unset.getD []).map Prod.fst) →
          indexNested k a = false) ∧
      (∀ a ∈ arrayPathsOf (getChangeSet persisted working),
        (∀ b ∈ arrayPathsOf (getChangeSet persisted working),
          b ≠ a → indexNested a b = false) →
        lookupStr (q.set.getD []) a =
          some (instGet (.vobj working) a .vundefined))) := by
  refine ⟨getUpdateQuery_empty_iff persisted working, ?_⟩
  intro q hq
  have hfold : (arrayPathsOf (getChangeSet persisted working)).foldlM
      (arrayPathStep working)
      ⟨some ((getChangeSet persisted working).foldl updateStep
        ([], none, [])).1,
       ((getChangeSet persisted working).foldl updateStep
        ([], none, [])).2.1⟩ = some q := getUpdateQuery_ok_some hq
  have hkeyok := getChangeSet_keyOk hp hw
  have hsame := getChangeSet_samepath hp hw
  have hapnd := arrayPathsOf_nodup (getChangeSet persisted working)
  have happw := arrayPathsOf_pairwise hp hw
  -- a change record that is not an array record never shares its joined
  -- path with any collected array path
  have hnotaps : ∀ c ∈ getChangeSet persisted working, c.kind ≠ .A →
      joinDots c.path ∉ arrayPathsOf (getChangeSet persisted working) := by
    intro c hc hkc hmem
    obtain ⟨c', hc', hA', hj'⟩ := mem_arrayPathsOf.mp hmem
    have hpatheq : c'.path = c.path :=
      joinDots_inj _ _ (hkeyok c' hc') (hkeyok c hc) hj'
    rcases hsame c' hc' c hc hpatheq with ⟨_, hA2⟩ | heq
    · exact hkc hA2
    · rw [heq] at hA'
      exact hkc hA'
  have hst1 : ((getChangeSet persisted working).foldl updateStep
      ([], none, [])).1 =
      (getChangeSet persisted working).foldl
        (fun m c => if c.kind = .N ∨ c.kind = .E
          then setField m (joinDots c.path) (c.rhs.getD .vundefined)
          else m) [] := by
    rw [updateStep_fold]
  have hst2 : ((getChangeSet persisted working).foldl updateStep
      ([], none, [])).2.1 =
      (getChangeSet persisted working).foldl
        (fun u c => if c.kind = .D
          then some (setField (u.getD []) (joinDots c.path) (.vstr ""))
          else u) none := by
    rw [updateStep_fold]
  refine ⟨?_, ?_, ?_, ?_⟩
  · -- new and edited records land in $set
    intro c hc hkind hnonest
    have hall : ∀ c' ∈ getChangeSet persisted working,
        (c'.kind = .N ∨ c'.kind = .E) →
        joinDots c'.path = joinDots c.path →
        c'.rhs.getD .vundefined = c.rhs.getD .vundefined := by
      intro c' hc' hkind' hj'
      have hpatheq : c'.path = c.path :=
        joinDots_inj _ _ (hkeyok c' hc') (hkeyok c hc) hj'
      rcases hsame c' hc' c hc hpatheq with ⟨hA1, _⟩ | heq
      · rcases hkind' with h | h
        · rw [h] at hA1
          cases hA1
        · rw [h] at hA1
          cases hA1
      · rw [heq]
    have hphase1 : lookupStr (((getChangeSet persisted working).foldl
        updateStep ([], none, [])).1) (joinDots c.path) =
        some (c.rhs.getD .vundefined) := by
      rw [hst1]
      exact setfold_lookup_of_write _ [] _ _ ⟨c, hc, hkind, rfl⟩ hall
    refine arrayPathFold_keep working _ _ (joinDots c.path) _ q
      ?_ hnonest ?_ hfold
    · simpa using hphase1
    · refine hnotaps c hc ?_
      rcases hkind with h | h <;> rw [h] <;> intro hx <;> cases hx
  · -- deleted records land in $unset
    intro c hc hkind hnonest
    have hphase1 : lookupStr ((((getChangeSet persisted working).foldl
        updateStep ([], none, [])).2.1).getD []) (joinDots c.path) =
        some (.vstr "") := by
      rw [hst2]
      exact ufold_lookup _ none _ (Or.inr ⟨c, hc, hkind, rfl⟩)
    exact arrayPathFold_keep_unset working _ _ (joinDots c.path) q
      hphase1 hnonest hfold
  · -- no surviving key is index-nested under an array path
    intro a ha
    obtain ⟨pre, post, hsplit⟩ := List.append_of_mem ha
    rw [hsplit, List.foldlM_append] at hfold
    obtain ⟨qa, hqa, hrest⟩ := Option.bind_eq_some.mp hfold
    rw [List.foldlM_cons] at hrest
    obtain ⟨qa1, hqa1, hrest2⟩ := Option.bind_eq_some.mp hrest
    obtain ⟨m', hm', rfl⟩ := arrayPathStep_some hqa1
    have hpost : ∀ p ∈ post, indexNested p a = false := by
      rw [hsplit] at happw
      have h2 := (List.pairwise_append.mp happw).2.1
      exact (List.pairwise_cons.mp h2).1
    refine arrayfold_clean_one working post _ a q hrest2 ?_ hpost
    intro k hk
    rcases hk with hk | hk
    · simp only [Option.getD_some] at hk
      rcases mem_keys_setField _ _ _ _ hk with h1 | h1
      · have h2 : k ∈ ((purgeBucket a qa.set).getD []).map Prod.fst := by
          rw [hm']
          simpa using h1
        exact (purgeBucket_keys h2).2
      · rw [h1]
        exact indexNested_self_false a
    · exact (purgeBucket_keys hk).2
  · -- a top array path maps to the current working value
    intro a ha hnotb
    obtain ⟨pre, post, hsplit⟩ := List.append_of_mem ha
    have hanotpost : a ∉ post := by
      rw [hsplit] at hapnd
      have h2 := (List.nodup_append.mp hapnd).2.1
      exact (List.nodup_cons.mp h2).1
    rw [hsplit, List.foldlM_append] at hfold
    obtain ⟨qa, hqa, hrest⟩ := Option.bind_eq_some.mp hfold
    rw [List.foldlM_cons] at hrest
    obtain ⟨qa1, hqa1, hrest2⟩ := Option.bind_eq_some.mp hrest
    obtain ⟨m', hm', rfl⟩ := arrayPathStep_some hqa1
    refine arrayPathFold_keep working post _ a _ q ?_ ?_ hanotpost hrest2
    · simpa using lookupStr_setField_self m' a _
    · intro p hp
      refine hnotb p ?_ ?_
      · rw [hsplit]
        simp [hp]
      · intro hpa
        rw [hpa] at hp
        exact hanotpost hp

/-- Claim C1, counterexample to the claim as stated: an instance whose
only change is a shortened array has a non-empty change set, yet
`getUpdateQuery` builds no patch at all — the array pass deletes the
emptied `$set` bucket and then assigns into it, a `TypeError`. -/
theorem update_query_crash_counterexample :
    getChangeSet (some [("a", Val.varr [Val.vint 1, Val.vint 2])])
        [("a", Val.varr [Val.vint 1])] ≠ [] ∧
      getUpdateQuery (some [("a", Val.varr [Val.vint 1, Val.vint 2])])
        [("a", Val.varr [Val.vint 1])] = .error () := by
  exact ⟨by decide, by decide⟩

theorem update_query_buckets_witness :
    WFVal (.vobj [("a", Val.vint 1)]) = true ∧
      WFVal (.vobj [("a", Val.vint 2)]) = true ∧
      (getChangeSet (some [("a", Val.vint 1)]) [("a", Val.vint 2)] = [] ↔
        getUpdateQuery (some [("a", Val.vint 1)]) [("a", Val.vint 2)] =
          .ok none) :=
  ⟨by decide, by decide,
    (update_query_buckets (some [("a", Val.vint 1)]) [("a", Val.vint 2)]
      (by decide) (by decide)).1⟩

/-- Generic first-match association lookup (plain JS object read). -/
def lookupCtx (table : List (String × List String)) (k : String) :
    Option (List String) :=
  (table.find? (fun p => p.1 == k)).map Prod.snd

/-- Replacement-or-append write for the registry table. -/
def setCtx (table : List (String × List String)) (k : String)
    (v : List String) : List (String × List String) :=
  match table with
  | [] => [(k, v)]
  | (l, w) :: rest =>
    if l == k then (l, v) :: rest else (l, w) :: setCtx rest k v

/-- `Klass.writable(context, properties)` from `accessors.js`: materialize
the `WRITABLE_PROPERTIES` table, then replace the context's entry with the
deduplicated concatenation of the old entry and the new properties (a
`MySet` keeps first-insertion order). -/
def writableReg (reg : Option (List (String × List String)))
    (ctx : String) (props : List String) :
    Option (List (String × List String)) :=
  let table := reg.getD []
  let old := (lookupCtx table ctx).getD []
  some (setCtx table ctx ((old ++ props).foldl addKey []))

/-- `getObservationContext` from `utils.js` for a given registry table:
`'_all'` when asked for or when the table was never created; otherwise
the requested context (default `'default'`, also for the falsy empty
string) when the table defines it, else `'default'`. -/
def getObservationContext (reg : Option (List (String × List String)))
    (asOpt : Option String) : String :=
  if asOpt = some "_all" ∨ reg = none then "_all"
  else
    let a := match asOpt with
      | none => "default"
      | some "" => "default"
      | some s => s
    match lookupCtx (reg.getD []) a with
    | some _ => a
    | none => "default"

/-- Instance method `canWrite(property, {as})` from `accessors.js`. -/
def canWrite (reg : Option (List (String × List String)))
    (asOpt : Option String) (property : String) : Bool :=
  let ctx := getObservationContext reg asOpt
  if ctx = "_all" then true
  else
    let allowed := (lookupCtx (reg.getD []) ctx).getD []
    isNestedInSome property allowed

/-- One iteration of the `dirtyFields().forEach` inside `clean`
(`accessors.js` 44-71): skip writable fields; otherwise find the lowest
allowed divergence point `lcd` by extending the leading segment while
some allowed property is nested in the accumulator, roll `lcd` back to
its persisted value (`reset`), and `unset` it when the reset left it
`undefined`.  `Except.error` is a thrown `TypeError`: when the resolved
context has no `WRITABLE_PROPERTIES` entry, `someAreNestedIn` calls
`.some` on `undefined` — but only inside the `reduce` callback, which
runs once per segment after the first, so a single-segment field is
still rolled back normally; `reset`/`unset` throw on unwalkable paths. -/
def cleanField (reg : Option (List (String × List String))) (ctx : String)
    (persisted : Option (List (String × Val))) (root : Val)
    (field : String) : Except Unit Val :=
  if canWrite reg (some ctx) field then .ok root
  else
    match splitDots field with
    | [] => .ok root
    | initial :: rest => do
      let lcd ← rest.foldlM (fun accum part =>
        match lookupCtx (reg.getD []) ctx with
        | none => .error ()
        | some allowed =>
          .ok (if someAreNestedIn allowed accum then accum ++ "." ++ part
            else accum)) initial
      match instSet root lcd
          (deepFetchD (.vobj (persisted.getD [])) (splitDots lcd)) with
      | none => .error ()
      | some r1 =>
        if instGet r1 lcd .vundefined = .vundefined then
          match instUnset r1 lcd with
          | none => .error ()
          | some r2 => .ok r2
        else .ok r1

/-- Instance method `clean({as})` from `accessors.js`: a no-op under the
`'_all'` context, otherwise one `cleanField` pass over the dirty fields
computed up front. -/
def cleanModel (reg : Option (List (String × List String)))
    (asOpt : Option String) (persisted : Option (List (String × Val)))
    (working : List (String × Val)) : Except Unit Val :=
  let ctx := getObservationContext reg asOpt
  if ctx = "_all" then .ok (.vobj working)
  else do
    let ds ← dirtyFields persisted working
    ds.foldlM (cleanField reg ctx persisted) (.vobj working)

/-- The top-level field list of a value; the save pipeline only ever
applies it to the working-state root, which is an object. -/
def asObjFields : Val → List (String × Val)
  | .vobj fs => fs
  | _ => []

/-- The synchronous action `save` decides on (`persistence.js` 88-161)
for a model with no validator: `insert` with both timestamps for a new
instance, otherwise `noopResolve` when `getUpdateQuery` returned nothing
(the empty-patch short-circuit: resolve immediately, no write) or
`update` with the computed patch. -/
inductive SaveAction where
  | noopResolve : SaveAction
  | insert : Val → SaveAction
  | update : UpdateQuery → SaveAction
deriving DecidableEq

/-- `save(options)` up to the point where storage I/O would start, for a
model with no validator: clean unless `options.clean === false`, stamp
`updated_at`, then insert (stamping `created_at`) for a new instance;
otherwise first build the update criteria
`{_id: new ObjectId(original._id.toString())}` (`persistence.js` 133) —
calling `.toString()` on a missing (`undefined`) or `null` persisted
`_id` throws before the update query is ever computed — and then compute
the update patch.  Identifiers are opaque strings in this model, so the
criteria value itself is not carried further.  `Except.error` is any
synchronously thrown exception (from `clean`, from the criteria
construction, or from the `getUpdateQuery` array pass). -/
def saveModel (reg : Option (List (String × List String)))
    (asOpt : Option String) (doClean : Bool)
    (persisted : Option (List (String × Val)))
    (working : List (String × Val)) (ts : Int) :
    Except Unit SaveAction := do
  let w1 ← if doClean then cleanModel reg asOpt persisted working
    else .ok (.vobj working)
  let w2 ← match instSet w1 "updated_at" (.vdate ts) with
    | some w => Except.ok w
    | none => Except.error ()
  match persisted with
  | none =>
    match instSet w2 "created_at" (.vdate ts) with
    | some w3 => .ok (.insert w3)
    | none => .error ()
  | some p =>
    if (lookupStr p "_id").getD .vundefined = .vundefined ∨
        (lookupStr p "_id").getD .vundefined = .vnull then .error ()
    else
      match getUpdateQuery (some p) (asObjFields w2) with
      | .ok none => .ok .noopResolve
      | .ok (some q) => .ok (.update q)
      | .error e => .error e

/-- The outcome of `destroy` (`persistence.js` 247-279). -/
inductive DestroyOutcome where
  | resolved : DestroyOutcome
  | valueError : DestroyOutcome
deriving DecidableEq

/-- `destroy()` on a model instance: immediate success for a new
instance, a `value` `Klass.Error` when the persisted snapshot has no
truthy `_id`, otherwise a single-document delete by that id.  The result
carries the outcome, the id the delete was issued with (`none` when no
delete happens), and the instance's state afterward: no branch of the
original touches either the working or the persisted snapshot. -/
def destroyModel (persisted : Option (List (String × Val)))
    (working : List (String × Val)) :
    DestroyOutcome × Option Val ×
      Option (List (String × Val)) × List (String × Val) :=
  match persisted with
  | none => (.resolved, none, persisted, working)
  | some p =>
    match lookupStr p "_id" with
    | none => (.valueError, none, persisted, working)
    | some idv =>
      if truthy idv then (.resolved, some idv, persisted, working)
      else (.valueError, none, persisted, working)

/-- Whether a stored document matches query criteria: conjunction of
dotted-path equality tests (the fragment of MongoDB matching the finders
use). -/
def matchesCriteria (doc : List (String × Val))
    (criteria : List (String × Val)) : Bool :=
  criteria.all (fun kv =>
    deepFetchD (.vobj doc) (splitDots kv.1) == kv.2)

/-- Class finder `get(criteria)` from `finders.js` over an in-memory
store: no match resolves empty (`none`), a unique match resolves with
that document, and any criteria matching more than one document reject
with a `result` `Klass.Error` — the first match is never delivered. -/
def getFinder (store : List (List (String × Val)))
    (criteria : List (String × Val)) :
    Except MError (Option (List (String × Val))) :=
  match store.filter (fun d => matchesCriteria d criteria) with
  | [] => .ok none
  | [d] => .ok (some d)
  | _ => .error (.kerr "result")

theorem lookupStr_mem_keys :
    ∀ {fs : List (String × Val)} {k : String} {v : Val},
      lookupStr fs k = some v → k ∈ fs.map Prod.fst
  | [], k, v, h => by simp [lookupStr] at h
  | (l, w) :: rest, k, v, h => by
    by_cases hlk : l = k
    · simp [hlk]
    · have hne : (l == k) = false := by simp [hlk]
      simp only [lookupStr, List.find?, hne] at h
      exact List.mem_cons_of_mem _ (lookupStr_mem_keys h)

theorem lookupStr_none_not_mem :
    ∀ {fs : List (String × Val)} {k : String},
      lookupStr fs k = none → k ∉ fs.map Prod.fst
  | [], k, _ => by simp
  | (l, w) :: rest, k, h => by
    by_cases hlk : l = k
    · have heq : (l == k) = true := by simp [hlk]
      simp [lookupStr, List.find?, heq] at h
    · have hne : (l == k) = false := by simp [hlk]
      simp only [lookupStr, List.find?, hne] at h
      simp only [List.map_cons, List.mem_cons]
      intro hmem
      rcases hmem with h0 | h0
      · exact hlk h0.symm
      · exact lookupStr_none_not_mem h h0

/-- A dot-free joined path decodes to its single component. -/
theorem joinDots_single_decode :
    ∀ (ps : List String) (s : String), '.' ∉ s.data → s ≠ "" →
      (∀ k ∈ ps, keyOk k = true) → joinDots ps = s → ps = [s]
  | [], s, _, hne, _, h => absurd h.symm hne
  | [x], s, _, _, _, h => by rw [show joinDots [x] = x from rfl] at h; rw [h]
  | x :: y :: rest, s, hnd, _, _, h => by
    exfalso
    have hd := congrArg String.data h
    rw [joinDots_cons_cons] at hd
    exact hnd (hd ▸ (by simp : '.' ∈ x.data ++ '.' ::
      (joinDots (y :: rest)).data))

theorem nodupKeys_setField :
    ∀ (fs : List (String × Val)) (k : String) (v : Val),
      nodupKeys (fs.map Prod.fst) = true →
      nodupKeys ((setField fs k v).map Prod.fst) = true
  | [], k, v, _ => by simp [setField, nodupKeys]
  | (l, w) :: rest, k, v, h => by
    simp only [List.map_cons] at h
    rw [show nodupKeys (l :: rest.map Prod.fst) =
      (!(rest.map Prod.fst).contains l && nodupKeys (rest.map Prod.fst))
      from rfl, Bool.and_eq_true] at h
    by_cases hlk : l = k
    · have heq : (l == k) = true := by simp [hlk]
      simp only [setField, heq, if_true, List.map_cons]
      rw [show nodupKeys (l :: rest.map Prod.fst) =
        (!(rest.map Prod.fst).contains l && nodupKeys (rest.map Prod.fst))
        from rfl, Bool.and_eq_true]
      exact h
    · have hne : (l == k) = false := by simp [hlk]
      simp only [setField, hne, Bool.false_eq_true, if_false, List.map_cons]
      rw [show nodupKeys (l :: (setField rest k v).map Prod.fst) =
        (!((setField rest k v).map Prod.fst).contains l &&
          nodupKeys ((setField rest k v).map Prod.fst))
        from rfl, Bool.and_eq_true]
      refine ⟨?_, nodupKeys_setField rest k v h.2⟩
      cases hc : ((setField rest k v).map Prod.fst).contains l with
      | false => rfl
      | true =>
        exfalso
        have hm := List.mem_of_elem_eq_true hc
        rcases mem_keys_setField _ _ _ _ hm with h1 | h1
        · have hcf : (rest.map Prod.fst).contains l = false := by
            simpa using h.1
          have hct : (rest.map Prod.fst).contains l = true :=
            List.elem_eq_true_of_mem h1
          rw [hcf] at hct
          cases hct
        · exact hlk h1

theorem WFFields_setField :
    ∀ (fs : List (String × Val)) (k : String) (v : Val),
      WFFields fs = true → WFVal v = true →
      WFFields (setField fs k v) = true
  | [], k, v, _, hv => by
    simp only [setField]
    rw [show WFFields [(k, v)] = (WFVal v && WFFields []) from rfl]
    simp [hv, show WFFields [] = true from rfl]
  | (l, w) :: rest, k, v, h, hv => by
    rw [show WFFields ((l, w) :: rest) = (WFVal w && WFFields rest)
      from rfl, Bool.and_eq_true] at h
    by_cases hlk : l = k
    · have heq : (l == k) = true := by simp [hlk]
      simp only [setField, heq, if_true]
      rw [show WFFields ((l, v) :: rest) = (WFVal v && WFFields rest)
        from rfl, Bool.and_eq_true]
      exact ⟨hv, h.2⟩
    · have hne : (l == k) = false := by simp [hlk]
      simp only [setField, hne, Bool.false_eq_true, if_false]
      rw [show WFFields ((l, w) :: setField rest k v) =
        (WFVal w && WFFields (setField rest k v)) from rfl,
        Bool.and_eq_true]
      exact ⟨h.1, WFFields_setField rest k v h.2 hv⟩

/-- Writing a well-formed value at a well-shaped key preserves state
well-formedness. -/
theorem WF_setField {fs : List (String × Val)} {k : String} {v : Val}
    (h : WFVal (.vobj fs) = true) (hv : WFVal v = true)
    (hk : keyOk k = true) : WFVal (.vobj (setField fs k v)) = true := by
  rw [show WFVal (Val.vobj fs) =
    (nodupKeys (fs.map Prod.fst) && (fs.map Prod.fst).all keyOk &&
      WFFields fs) from rfl, Bool.and_eq_true, Bool.and_eq_true] at h
  rw [show WFVal (Val.vobj (setField fs k v)) =
    (nodupKeys ((setField fs k v).map Prod.fst) &&
      ((setField fs k v).map Prod.fst).all keyOk &&
      WFFields (setField fs k v)) from rfl, Bool.and_eq_true,
    Bool.and_eq_true]
  refine ⟨⟨nodupKeys_setField fs k v h.1.1, ?_⟩,
    WFFields_setField fs k v h.2 hv⟩
  rw [List.all_eq_true]
  intro x hx
  rcases mem_keys_setField _ _ _ _ hx with h1 | h1
  · exact List.all_eq_true.mp h.1.2 x h1
  · rw [h1]
    exact hk

/-- Writing a top-level (dot-free) property on an object root always
succeeds and is a plain field replacement. -/
theorem instSet_vobj_top (fs : List (String × Val)) (k : String) (v : Val)
    (hk : splitDots k = [k]) :
    instSet (.vobj fs) k v = some (.vobj (setField fs k v)) := by
  simp only [instSet, hk]
  rfl

/-- The array pass cannot crash while `$set` holds a key that no purge
pattern ever matches. -/
theorem arrayPathFold_total (working : List (String × Val)) :
    ∀ (ps : List String) (q : UpdateQuery) (j : String) (v : Val),
      lookupStr (q.set.getD []) j = some v →
      (∀ a : String, indexNested j a = false) →
      ∃ q', ps.foldlM (arrayPathStep working) q = some q'
  | [], q, j, v, _, _ => ⟨q, rfl⟩
  | p :: ps, q, j, v, hset, hni => by
    cases hqs : q.set with
    | none =>
      rw [hqs] at hset
      simp [lookupStr] at hset
    | some m =>
      rw [hqs] at hset
      simp only [Option.getD_some] at hset
      obtain ⟨m', hm', hl⟩ := purgeBucket_some_of_lookup hset (hni p)
      have hstep : arrayPathStep working q p =
          some ⟨some (setField m' p (instGet (.vobj working) p
            .vundefined)), purgeBucket p q.unset⟩ := by
        simp only [arrayPathStep, hqs, hm']
      by_cases hpj : p = j
      · subst hpj
        obtain ⟨q', hq'⟩ := arrayPathFold_total working ps
          ⟨some (setField m' p (instGet (.vobj working) p .vundefined)),
            purgeBucket p q.unset⟩ p
          (instGet (.vobj working) p .vundefined)
          (by
            simp only [Option.getD_some]
            exact lookupStr_setField_self _ _ _) hni
        exact ⟨q', by rw [List.foldlM_cons, hstep]; simpa using hq'⟩
      · obtain ⟨q', hq'⟩ := arrayPathFold_total working ps
          ⟨some (setField m' p (instGet (.vobj working) p .vundefined)),
            purgeBucket p q.unset⟩ j v
          (by
            simp only [Option.getD_some]
            rw [lookupStr_setField_other _ _ _ _ hpj]
            exact hl) hni
        exact ⟨q', by rw [List.foldlM_cons, hstep]; simpa using hq'⟩

theorem diffF_dates (fuel : Nat) (t1 t2 : Int) (path : List String)
    (h : t1 ≠ t2) :
    diffF (fuel + 1) (.vdate t1) (.vdate t2) path =
      [⟨.E, path, some (.vdate t1), some (.vdate t2)⟩] := by
  simp [diffF, jsType, isDateV, h]

/-- With `updated_at` freshly stamped in the working state and absent or
a different date in the persisted state, the update query succeeds and
sets `updated_at` — `'updated_at'` contains no dot, so no array purge
can remove it and the `$set` bucket can never be emptied. -/
theorem updated_at_write (p w2 : List (String × Val)) (ts : Int)
    (hp : WFVal (.vobj p) = true) (hw2 : WFVal (.vobj w2) = true)
    (hlook2 : lookupStr w2 "updated_at" = some (.vdate ts))
    (hupd : lookupStr p "updated_at" = none ∨
      ∃ t, lookupStr p "updated_at" = some (.vdate t) ∧ t ≠ ts) :
    ∃ q, getUpdateQuery (some p) w2 = .ok (some q) ∧
      lookupStr (q.set.getD []) "updated_at" = some (.vdate ts) := by
  have hnd : ('.' ∉ "updated_at".data) := by decide
  have hnestr : "updated_at" ≠ "" := by decide
  have hw2k : "updated_at" ∈ keysOf (Val.vobj w2) := by
    simp only [keysOf]
    exact mem_jsKeyList.mpr (lookupStr_mem_keys hlook2)
  have hcontw : (keysOf (Val.vobj w2)).contains "updated_at" = true :=
    List.elem_eq_true_of_mem hw2k
  have hlookw : lookupD (Val.vobj w2) "updated_at" = Val.vdate ts := by
    simp [lookupD, hlook2]
  have hcseq : getChangeSet (some p) w2 =
      diffF ((vdepthFields p + 1) + 1) (.vobj p) (.vobj w2) [] := rfl
  -- a record at path `["updated_at"]` with the stamped right-hand side
  have hrec : ∃ c ∈ getChangeSet (some p) w2,
      (c.kind = .N ∨ c.kind = .E) ∧ c.path = ["updated_at"] ∧
        c.rhs = some (.vdate ts) := by
    rcases hupd with h0 | ⟨t, hlkt, htne⟩
    · have hpnk : "updated_at" ∉ keysOf (Val.vobj p) := by
        simp only [keysOf]
        exact fun hm => lookupStr_none_not_mem h0 (mem_jsKeyList.mp hm)
      have hcontp : (keysOf (Val.vobj p)).contains "updated_at" = false := by
        cases hcp : (keysOf (Val.vobj p)).contains "updated_at" with
        | false => rfl
        | true => exact absurd (List.mem_of_elem_eq_true hcp) hpnk
      refine ⟨⟨.N, ["updated_at"], none, some (.vdate ts)⟩, ?_,
        Or.inl rfl, rfl, rfl⟩
      rw [hcseq, diffF_obj]
      refine List.mem_append.mpr (Or.inr ?_)
      refine List.mem_flatten.mpr
        ⟨[⟨.N, ["updated_at"], none, some (.vdate ts)⟩], ?_, by simp⟩
      refine List.mem_map.mpr ⟨"updated_at", ?_, ?_⟩
      · exact List.mem_filter.mpr ⟨hw2k, by simp [hpnk]⟩
      · rw [hlookw]
        rw [if_neg (by simp)]
        simp
    · have hpk : "updated_at" ∈ keysOf (Val.vobj p) := by
        simp only [keysOf]
        exact mem_jsKeyList.mpr (lookupStr_mem_keys hlkt)
      have hlookp : lookupD (Val.vobj p) "updated_at" = Val.vdate t := by
        simp [lookupD, hlkt]
      refine ⟨⟨.E, ["updated_at"], some (.vdate t), some (.vdate ts)⟩, ?_,
        Or.inr rfl, rfl, rfl⟩
      rw [hcseq, diffF_obj]
      refine List.mem_append.mpr (Or.inl ?_)
      refine List.mem_flatten.mpr
        ⟨[⟨.E, ["updated_at"], some (.vdate t), some (.vdate ts)⟩], ?_,
          by simp⟩
      refine List.mem_map.mpr ⟨"updated_at", hpk, ?_⟩
      rw [if_pos hcontw, hlookp, hlookw]
      rw [diffF_dates (vdepthFields p) t ts _ htne]
      simp
  obtain ⟨c, hc, hckind, hcpath, hcrhs⟩ := hrec
  have hjoin : joinDots c.path = "updated_at" := by rw [hcpath]; rfl
  have hcsne : getChangeSet (some p) w2 ≠ [] := List.ne_nil_of_mem hc
  have hkeyok : ∀ c' ∈ getChangeSet (some p) w2, ∀ k ∈ c'.path,
      keyOk k = true := getChangeSet_keyOk hp hw2
  have hsame : ∀ c1 ∈ getChangeSet (some p) w2,
      ∀ c2 ∈ getChangeSet (some p) w2, c1.path = c2.path →
        (c1.kind = .A ∧ c2.kind = .A) ∨ c1 = c2 :=
    getChangeSet_samepath hp hw2
  have hall : ∀ c' ∈ getChangeSet (some p) w2,
      (c'.kind = .N ∨ c'.kind = .E) →
      joinDots c'.path = "updated_at" →
      c'.rhs.getD .vundefined = Val.vdate ts := by
    intro c' hc' hk' hj'
    have hp' : c'.path = ["updated_at"] :=
      joinDots_single_decode _ _ hnd hnestr (hkeyok c' hc') hj'
    have hpe : c'.path = c.path := by rw [hp', hcpath]
    rcases hsame c' hc' c hc hpe with ⟨hA, _⟩ | heq
    · rcases hk' with h0 | h0 <;> (rw [h0] at hA; cases hA)
    · rw [heq, hcrhs]
      rfl
  have hst1 : lookupStr (((getChangeSet (some p) w2).foldl updateStep
      ([], none, [])).1) "updated_at" = some (.vdate ts) := by
    rw [updateStep_fold]
    exact setfold_lookup_of_write _ [] _ _ ⟨c, hc, hckind, hjoin⟩ hall
  have hnia : ∀ a, indexNested "updated_at" a = false :=
    fun a => indexNested_nodot a hnd
  have hq0set : lookupStr
      ((⟨some ((getChangeSet (some p) w2).foldl updateStep
          ([], none, [])).1,
        ((getChangeSet (some p) w2).foldl updateStep
          ([], none, [])).2.1⟩ : UpdateQuery).set.getD [])
      "updated_at" = some (.vdate ts) := by
    simpa using hst1
  obtain ⟨qf, hqf⟩ := arrayPathFold_total w2
    (arrayPathsOf (getChangeSet (some p) w2))
    ⟨some ((getChangeSet (some p) w2).foldl updateStep ([], none, [])).1,
      ((getChangeSet (some p) w2).foldl updateStep ([], none, [])).2.1⟩
    "updated_at" (.vdate ts) hq0set hnia
  have hnj : "updated_at" ∉ arrayPathsOf (getChangeSet (some p) w2) := by
    intro hmem
    obtain ⟨c', hc', hA', hj'⟩ := mem_arrayPathsOf.mp hmem
    have hp' : c'.path = ["updated_at"] :=
      joinDots_single_decode _ _ hnd hnestr (hkeyok c' hc') hj'
    have hpe : c'.path = c.path := by rw [hp', hcpath]
    rcases hsame c' hc' c hc hpe with ⟨_, hA2⟩ | heq
    · rcases hckind with h0 | h0 <;> (rw [h0] at hA2; cases hA2)
    · rw [heq] at hA'
      rcases hckind with h0 | h0 <;> (rw [h0] at hA'; cases hA')
  refine ⟨qf, ?_, ?_⟩
  · simp only [getUpdateQuery]
    rw [if_neg hcsne]
    have hqf' : ((getChangeSet (some p) w2).foldl updateStep
        ([], none, [])).2.2.foldlM (arrayPathStep w2)
        ⟨some ((getChangeSet (some p) w2).foldl updateStep
          ([], none, [])).1,
         ((getChangeSet (some p) w2).foldl updateStep
          ([], none, [])).2.1⟩ = some qf := hqf
    simp only [hqf']
  · exact arrayPathFold_keep w2 _ _ _ _ qf hq0set
      (fun a _ => hnia a) hnj hqf

/-- Claim C8 (amended).  For a persisted instance carrying a usable
identifier (an `_id` that is neither `undefined` nor `null`, so the
criteria construction at `persistence.js` 133 does not throw) whose
persisted `updated_at` is absent or a date different from the stamp (and
with the clean pass skipped via `{clean: false}`), `save` never takes
the empty-patch short-circuit: the stamped `updated_at` always produces
a change record, the resulting update query always survives the array
pass, and the issued write sets `updated_at` to the stamp.  The
unreachability claim itself is refuted separately: a persisted
`updated_at` that is not a date (for example `{}`) diffs against the
stamped `Date` with no change record at all, and the short-circuit is
taken. -/
theorem save_shortcircuit_guarded
    (reg : Option (List (String × List String))) (asOpt : Option String)
    (p w : List (String × Val)) (ts : Int)
    (hp : WFVal (.vobj p) = true) (hw : WFVal (.vobj w) = true)
    (hid : ∃ idv, lookupStr p "_id" = some idv ∧
      idv ≠ Val.vundefined ∧ idv ≠ Val.vnull)
    (hupd : lookupStr p "updated_at" = none ∨
      ∃ t, lookupStr p "updated_at" = some (.vdate t) ∧ t ≠ ts) :
    ∃ q, saveModel reg asOpt false (some p) w ts = .ok (.update q) ∧
      lookupStr (q.set.getD []) "updated_at" = some (.vdate ts) := by
  have hsplit : splitDots "updated_at" = ["updated_at"] := by decide
  have hstamp := instSet_vobj_top w "updated_at" (.vdate ts) hsplit
  have hw2 : WFVal (.vobj (setField w "updated_at" (.vdate ts))) = true :=
    WF_setField hw rfl (by decide)
  obtain ⟨q, hq, hlook⟩ := updated_at_write p
    (setField w "updated_at" (.vdate ts)) ts hp hw2
    (lookupStr_setField_self _ _ _) hupd
  refine ⟨q, ?_, hlook⟩
  show saveModel reg asOpt false (some p) w ts = .ok (.update q)
  obtain ⟨idv, hidl, hu, hn⟩ := hid
  unfold saveModel
  rw [if_neg Bool.false_ne_true]
  simp only [bind, Except.bind, hstamp, hidl, Option.getD_some]
  rw [if_neg (not_or.mpr ⟨hu, hn⟩)]
  simp only [asObjFields, hq]

/-- Claim C8, counterexample to the claim as stated: a persisted
instance with a usable `_id` whose stored `updated_at` is a plain empty
object.  `save` stamps `updated_at` with a `Date`, but diffing `{}`
against a `Date` compares two key-less objects and yields no change
record, the change set is empty, and the empty-patch short-circuit is
reached — no write is issued even though the stamped time differs from
the persisted value. -/
theorem save_shortcircuit_reachable_counterexample :
    saveModel none none true
        (some [("_id", Val.vstr "i1"), ("updated_at", Val.vobj [])])
        [("_id", Val.vstr "i1"), ("updated_at", Val.vobj [])] 5 =
        .ok .noopResolve ∧
      lookupStr [("_id", Val.vstr "i1"), ("updated_at", Val.vobj [])]
        "updated_at" ≠ some (Val.vdate 5) := by
  exact ⟨by decide, by decide⟩

theorem save_shortcircuit_guarded_witness :
    WFVal (.vobj [("_id", Val.vstr "i1"), ("k", Val.vint 1),
      ("updated_at", Val.vdate 3)]) = true ∧
      WFVal (.vobj [("_id", Val.vstr "i1"), ("k", Val.vint 2),
        ("updated_at", Val.vdate 3)]) = true ∧
      (∃ idv, lookupStr [("_id", Val.vstr "i1"), ("k", Val.vint 1),
          ("updated_at", Val.vdate 3)] "_id" = some idv ∧
        idv ≠ Val.vundefined ∧ idv ≠ Val.vnull) ∧
      (lookupStr [("_id", Val.vstr "i1"), ("k", Val.vint 1),
          ("updated_at", Val.vdate 3)] "updated_at" = none ∨
        ∃ t, lookupStr [("_id", Val.vstr "i1"), ("k", Val.vint 1),
          ("updated_at", Val.vdate 3)] "updated_at" =
          some (.vdate t) ∧ t ≠ 7) ∧
      ∃ q, saveModel none none false
          (some [("_id", Val.vstr "i1"), ("k", Val.vint 1),
            ("updated_at", Val.vdate 3)])
          [("_id", Val.vstr "i1"), ("k", Val.vint 2),
            ("updated_at", Val.vdate 3)] 7 =
          .ok (.update q) ∧
        lookupStr (q.set.getD []) "updated_at" = some (Val.vdate 7) :=
  ⟨by decide, by decide, ⟨Val.vstr "i1", by decide, by decide, by decide⟩,
    Or.inr ⟨3, by decide, by decide⟩,
    save_shortcircuit_guarded none none
      [("_id", Val.vstr "i1"), ("k", Val.vint 1),
        ("updated_at", Val.vdate 3)]
      [("_id", Val.vstr "i1"), ("k", Val.vint 2),
        ("updated_at", Val.vdate 3)] 7
      (by decide) (by decide)
      ⟨Val.vstr "i1", by decide, by decide, by decide⟩
      (Or.inr ⟨3, by decide, by decide⟩)⟩

/-- Claim C6 (amended).  A successful `destroy()` on a persisted
instance with a (truthy) identifier issues the single-document delete by
that identifier and leaves the instance's state fully unchanged — the
working copy and also the persisted snapshot: no branch of `destroy`
writes either one, and the retained snapshot is what later makes
`updateWith` on a destroyed instance fail with "0 records updated!". -/
theorem destroy_preserves_snapshots (p working : List (String × Val))
    (idv : Val) (h : lookupStr p "_id" = some idv)
    (ht : truthy idv = true) :
    destroyModel (some p) working = (.resolved, some idv, some p, working) := by
  simp [destroyModel, h, ht]

/-- Claim C6, counterexample to the claim as stated: after a successful
`destroy()` the persisted snapshot is still present (and unchanged), not
cleared. -/
theorem destroy_counterexample :
    (destroyModel (some [("_id", Val.vstr "abc")]) [("x", Val.vint 1)]).1 =
        .resolved ∧
      (destroyModel (some [("_id", Val.vstr "abc")])
        [("x", Val.vint 1)]).2.2.1 = some [("_id", Val.vstr "abc")] ∧
      (some [("_id", Val.vstr "abc")] :
        Option (List (String × Val))) ≠ none := by
  exact ⟨by decide, by decide, by decide⟩

theorem destroy_preserves_snapshots_witness :
    lookupStr [("_id", Val.vstr "abc"), ("x", Val.vint 1)] "_id" =
        some (Val.vstr "abc") ∧
      truthy (Val.vstr "abc") = true ∧
      destroyModel (some [("_id", Val.vstr "abc"), ("x", Val.vint 1)])
          [("x", Val.vint 2)] =
        (.resolved, some (Val.vstr "abc"),
          some [("_id", Val.vstr "abc"), ("x", Val.vint 1)],
          [("x", Val.vint 2)]) :=
  ⟨by decide, by decide,
    destroy_preserves_snapshots [("_id", Val.vstr "abc"), ("x", Val.vint 1)]
      [("x", Val.vint 2)] (Val.vstr "abc") (by decide) (by decide)⟩

/-- Claim C7: whenever the criteria match more than one stored document,
the class finder `get` rejects with a `result` `Klass.Error` and
delivers no document — it never silently returns the first of many
matches. -/
theorem get_multiple_matches_rejects (store : List (List (String × Val)))
    (criteria : List (String × Val))
    (h : 1 < (store.filter (fun d => matchesCriteria d criteria)).length) :
    getFinder store criteria = .error (.kerr "result") := by
  unfold getFinder
  cases hf : store.filter (fun d => matchesCriteria d criteria) with
  | nil =>
    rw [hf] at h
    simp at h
  | cons d rest =>
    cases rest with
    | nil =>
      rw [hf] at h
      simp at h
    | cons d2 r2 => rfl

theorem get_multiple_matches_rejects_witness :
    1 < (([[("_id", Val.vstr "a"), ("k", Val.vint 1)],
          [("_id", Val.vstr "b"), ("k", Val.vint 1)]] :
        List (List (String × Val))).filter
        (fun d => matchesCriteria d [("k", Val.vint 1)])).length ∧
      getFinder [[("_id", Val.vstr "a"), ("k", Val.vint 1)],
          [("_id", Val.vstr "b"), ("k", Val.vint 1)]]
        [("k", Val.vint 1)] = .error (.kerr "result") :=
  ⟨by decide,
    get_multiple_matches_rejects
      [[("_id", Val.vstr "a"), ("k", Val.vint 1)],
       [("_id", Val.vstr "b"), ("k", Val.vint 1)]]
      [("k", Val.vint 1)] (by decide)⟩

theorem cleanFold_skip (reg : Option (List (String × List String)))
    (ctx : String) (p : Option (List (String × Val))) :
    ∀ (ds : List String) (root : Val),
      (∀ f ∈ ds, canWrite reg (some ctx) f = true) →
      ds.foldlM (cleanField reg ctx p) root = .ok root
  | [], root, _ => rfl
  | f :: ds, root, h => by
    rw [List.foldlM_cons]
    have hstep : cleanField reg ctx p root f = .ok root := by
      simp only [cleanField]
      rw [if_pos (h f (by simp))]
    rw [hstep]
    show ds.foldlM (cleanField reg ctx p) root = .ok root
    exact cleanFold_skip reg ctx p ds root
      (fun f' hf' => h f' (List.mem_cons_of_mem _ hf'))

/-- Claim C5 (amended).  `clean` is not idempotent in general (see the
counterexample: a disallowed edit that changed a value's type is first
rolled back to an empty object and only a second pass restores the
persisted value).  It is a no-op — and hence idempotent — whenever every
dirty field is writable under the resolved context, in particular always
under the `'_all'` context or when no writable registry exists. -/
theorem clean_noop_when_writable
    (reg : Option (List (String × List String))) (asOpt : Option String)
    (p : Option (List (String × Val))) (w : List (String × Val))
    (ds : List String) (hd : dirtyFields p w = .ok ds)
    (hwr : ∀ f ∈ ds,
      canWrite reg (some (getObservationContext reg asOpt)) f = true) :
    cleanModel reg asOpt p w = .ok (.vobj w) ∧
    (∀ w', cleanModel reg asOpt p w = .ok (.vobj w') →
      cleanModel reg asOpt p w' = .ok (.vobj w')) := by
  have h1 : cleanModel reg asOpt p w = .ok (.vobj w) := by
    simp only [cleanModel]
    by_cases hctx : getObservationContext reg asOpt = "_all"
    · rw [if_pos hctx]
    · rw [if_neg hctx]
      show (do
        let ds ← dirtyFields p w
        ds.foldlM (cleanField reg (getObservationContext reg asOpt) p)
          (.vobj w) : Except Unit Val) = .ok (.vobj w)
      rw [hd]
      show ds.foldlM (cleanField reg (getObservationContext reg asOpt) p)
        (.vobj w) = .ok (.vobj w)
      exact cleanFold_skip reg _ p ds (.vobj w) hwr
  refine ⟨h1, ?_⟩
  intro w' h'
  rw [h1] at h'
  have hww : w = w' := by
    simp only [Except.ok.injEq, Val.vobj.injEq] at h'
    exact h'
  rw [← hww]
  exact h1

/-- Claim C5, counterexample: `clean` applied twice is not the same as
once.  Only `a.x.y` is writable; the disallowed edit `a = {x: 1}` over
the persisted `a = 5` first rolls back to `a = {}` (resetting the lowest
divergence point `a.x` to its persisted `undefined` deletes `x`), and a
second `clean` — now seeing the dirty field `a` itself — restores
`a = 5`. -/
theorem clean_not_idempotent_counterexample :
    cleanModel (writableReg none "default" ["a.x.y"]) none
        (some [("a", Val.vint 5)]) [("a", Val.vobj [("x", Val.vint 1)])] =
      .ok (Val.vobj [("a", Val.vobj [])]) ∧
    cleanModel (writableReg none "default" ["a.x.y"]) none
        (some [("a", Val.vint 5)]) [("a", Val.vobj [])] =
      .ok (Val.vobj [("a", Val.vint 5)]) ∧
    Val.vobj [("a", Val.vobj [])] ≠ Val.vobj [("a", Val.vint 5)] := by
  exact ⟨by decide, by decide, by decide⟩

theorem clean_noop_when_writable_witness :
    dirtyFields (some [("foo", Val.vint 1)]) [("foo", Val.vint 2)] =
        .ok ["foo"] ∧
      (∀ f ∈ ["foo"],
        canWrite (writableReg none "default" ["foo"])
          (some (getObservationContext
            (writableReg none "default" ["foo"]) none)) f = true) ∧
      cleanModel (writableReg none "default" ["foo"]) none
        (some [("foo", Val.vint 1)]) [("foo", Val.vint 2)] =
        .ok (.vobj [("foo", Val.vint 2)]) :=
  ⟨by decide, by decide,
    (clean_noop_when_writable (writableReg none "default" ["foo"]) none
      (some [("foo", Val.vint 1)]) [("foo", Val.vint 2)] ["foo"]
      (by decide) (by decide)).1⟩

theorem saveModel_clean_ok (reg : Option (List (String × List String)))
    (asOpt : Option String) (p w : List (String × Val)) (ts : Int)
    (w1 : List (String × Val))
    (hc : cleanModel reg asOpt (some p) w = .ok (.vobj w1)) :
    saveModel reg asOpt true (some p) w ts =
      match instSet (.vobj w1) "updated_at" (.vdate ts) with
      | some w2 =>
        if (lookupStr p "_id").getD .vundefined = .vundefined ∨
            (lookupStr p "_id").getD .vundefined = .vnull then .error ()
        else
          (match getUpdateQuery (some p) (asObjFields w2) with
            | .ok none => .ok .noopResolve
            | .ok (some q) => .ok (.update q)
            | .error e => .error e)
      | none => .error () := by
  unfold saveModel
  rw [if_pos rfl]
  rw [hc]
  rfl

/-- Claim C4.  With `writable('default', ['foo'])` and
`writable('priv', ['foo', 'baz'])` declared, consider a persisted
instance `{_id: 'i1', foo: f}` whose working copy has additionally set
`baz` to a key-less value `v` (any primitive, date, or empty container;
`baz` was previously absent).  Cleaning with no context rolls `baz`
back — since its persisted value is `undefined`, the key is removed
entirely; a `save()` with no context issues a write whose `$set` carries
only the `updated_at` stamp and no `baz`; and `save({as: 'priv'})`
retains the new `baz` value through the write. -/
theorem context_containment (f v : Val) (ts : Int)
    (hkv : (keysOf v).length = 0) (hvnn : v ≠ Val.vnull)
    (hvnu : v ≠ Val.vundefined) :
    cleanModel (writableReg (writableReg none "default" ["foo"]) "priv"
        ["foo", "baz"]) none
        (some [("_id", Val.vstr "i1"), ("foo", f)])
        [("_id", Val.vstr "i1"), ("foo", f), ("baz", v)] =
      .ok (.vobj [("_id", Val.vstr "i1"), ("foo", f)]) ∧
    saveModel (writableReg (writableReg none "default" ["foo"]) "priv"
        ["foo", "baz"]) none true
        (some [("_id", Val.vstr "i1"), ("foo", f)])
        [("_id", Val.vstr "i1"), ("foo", f), ("baz", v)] ts =
      .ok (.update ⟨some [("updated_at", Val.vdate ts)], none⟩) ∧
    saveModel (writableReg (writableReg none "default" ["foo"]) "priv"
        ["foo", "baz"]) (some "priv") true
        (some [("_id", Val.vstr "i1"), ("foo", f)])
        [("_id", Val.vstr "i1"), ("foo", f), ("baz", v)] ts =
      .ok (.update ⟨some [("baz", v), ("updated_at", Val.vdate ts)],
        none⟩) := by
  have hcs1 : getChangeSet (some [("_id", Val.vstr "i1"), ("foo", f)])
      [("_id", Val.vstr "i1"), ("foo", f), ("baz", v)] =
      [⟨.N, ["baz"], none, some v⟩] := by
    show diffF (vdepthFields [("_id", Val.vstr "i1"), ("foo", f)] + 1 + 1)
      (.vobj [("_id", Val.vstr "i1"), ("foo", f)])
      (.vobj [("_id", Val.vstr "i1"), ("foo", f), ("baz", v)]) [] = _
    simp [diffF_obj, diffF_self, hvnu,
      show keysOf (.vobj [("_id", Val.vstr "i1"), ("foo", f)]) =
        ["_id", "foo"] from rfl,
      show keysOf (.vobj [("_id", Val.vstr "i1"), ("foo", f),
        ("baz", v)]) = ["_id", "foo", "baz"] from rfl,
      show lookupD (.vobj [("_id", Val.vstr "i1"), ("foo", f)]) "_id" =
        Val.vstr "i1" from rfl,
      show lookupD (.vobj [("_id", Val.vstr "i1"), ("foo", f),
        ("baz", v)]) "_id" = Val.vstr "i1" from rfl,
      show lookupD (.vobj [("_id", Val.vstr "i1"), ("foo", f)]) "foo" = f
        from rfl,
      show lookupD (.vobj [("_id", Val.vstr "i1"), ("foo", f),
        ("baz", v)]) "foo" = f from rfl,
      show lookupD (.vobj [("_id", Val.vstr "i1"), ("foo", f),
        ("baz", v)]) "baz" = v from rfl]
  have hstep : rawPropsStep [] ⟨.N, ["baz"], none, some v⟩ =
      .ok ["baz"] := by
    cases v with
    | vundefined => exact absurd rfl hvnu
    | vnull => exact absurd rfl hvnn
    | vbool b => rfl
    | vint n => rfl
    | vstr s => rfl
    | vdate t => rfl
    | vobj fs =>
      have hfs : fs = [] := by
        have hlen := hkv
        rw [show keysOf (Val.vobj fs) = jsKeyList (fs.map Prod.fst)
          from rfl, (jsKeyList_perm (fs.map Prod.fst)).length_eq,
          List.length_map] at hlen
        exact List.eq_nil_of_length_eq_zero hlen
      subst hfs
      rfl
    | varr xs =>
      have hxs : xs = [] := by
        have hlen := hkv
        rw [show keysOf (Val.varr xs) = (List.range xs.length).map natKey
          from rfl, List.length_map, List.length_range] at hlen
        exact List.eq_nil_of_length_eq_zero hlen
      subst hxs
      rfl
  have hraw : rawProps [⟨.N, ["baz"], none, some v⟩] = .ok ["baz"] := by
    simp only [rawProps]
    rw [List.foldlM_cons, hstep]
    rfl
  have hds1 : dirtyFields (some [("_id", Val.vstr "i1"), ("foo", f)])
      [("_id", Val.vstr "i1"), ("foo", f), ("baz", v)] =
      .ok ["baz"] := by
    simp only [dirtyFields, hcs1, hraw]
    rfl
  have hcleand : cleanModel (writableReg (writableReg none "default"
      ["foo"]) "priv" ["foo", "baz"]) none
      (some [("_id", Val.vstr "i1"), ("foo", f)])
      [("_id", Val.vstr "i1"), ("foo", f), ("baz", v)] =
      .ok (.vobj [("_id", Val.vstr "i1"), ("foo", f)]) := by
    simp only [cleanModel]
    rw [if_neg (by decide), hds1]
    rfl
  have hcleanp : cleanModel (writableReg (writableReg none "default"
      ["foo"]) "priv" ["foo", "baz"]) (some "priv")
      (some [("_id", Val.vstr "i1"), ("foo", f)])
      [("_id", Val.vstr "i1"), ("foo", f), ("baz", v)] =
      .ok (.vobj [("_id", Val.vstr "i1"), ("foo", f), ("baz", v)]) := by
    simp only [cleanModel]
    rw [if_neg (by decide), hds1]
    rfl
  have hcs2 : getChangeSet (some [("_id", Val.vstr "i1"), ("foo", f)])
      [("_id", Val.vstr "i1"), ("foo", f),
        ("updated_at", Val.vdate ts)] =
      [⟨.N, ["updated_at"], none, some (.vdate ts)⟩] := by
    show diffF (vdepthFields [("_id", Val.vstr "i1"), ("foo", f)] + 1 + 1)
      (.vobj [("_id", Val.vstr "i1"), ("foo", f)])
      (.vobj [("_id", Val.vstr "i1"), ("foo", f),
        ("updated_at", Val.vdate ts)]) [] = _
    simp [diffF_obj, diffF_self,
      show keysOf (.vobj [("_id", Val.vstr "i1"), ("foo", f)]) =
        ["_id", "foo"] from rfl,
      show keysOf (.vobj [("_id", Val.vstr "i1"), ("foo", f),
        ("updated_at", Val.vdate ts)]) = ["_id", "foo", "updated_at"]
        from rfl,
      show lookupD (.vobj [("_id", Val.vstr "i1"), ("foo", f)]) "_id" =
        Val.vstr "i1" from rfl,
      show lookupD (.vobj [("_id", Val.vstr "i1"), ("foo", f),
        ("updated_at", Val.vdate ts)]) "_id" = Val.vstr "i1" from rfl,
      show lookupD (.vobj [("_id", Val.vstr "i1"), ("foo", f)]) "foo" = f
        from rfl,
      show lookupD (.vobj [("_id", Val.vstr "i1"), ("foo", f),
        ("updated_at", Val.vdate ts)]) "foo" = f from rfl,
      show lookupD (.vobj [("_id", Val.vstr "i1"), ("foo", f),
        ("updated_at", Val.vdate ts)]) "updated_at" = Val.vdate ts
        from rfl]
  have hq1 : getUpdateQuery (some [("_id", Val.vstr "i1"), ("foo", f)])
      [("_id", Val.vstr "i1"), ("foo", f),
        ("updated_at", Val.vdate ts)] =
      .ok (some ⟨some [("updated_at", Val.vdate ts)], none⟩) := by
    simp only [getUpdateQuery, hcs2]
    rfl
  have hcs3 : getChangeSet (some [("_id", Val.vstr "i1"), ("foo", f)])
      [("_id", Val.vstr "i1"), ("foo", f), ("baz", v),
        ("updated_at", Val.vdate ts)] =
      [⟨.N, ["baz"], none, some v⟩,
       ⟨.N, ["updated_at"], none, some (.vdate ts)⟩] := by
    show diffF (vdepthFields [("_id", Val.vstr "i1"), ("foo", f)] + 1 + 1)
      (.vobj [("_id", Val.vstr "i1"), ("foo", f)])
      (.vobj [("_id", Val.vstr "i1"), ("foo", f), ("baz", v),
        ("updated_at", Val.vdate ts)]) [] = _
    simp [diffF_obj, diffF_self, hvnu,
      show keysOf (.vobj [("_id", Val.vstr "i1"), ("foo", f)]) =
        ["_id", "foo"] from rfl,
      show keysOf (.vobj [("_id", Val.vstr "i1"), ("foo", f), ("baz", v),
        ("updated_at", Val.vdate ts)]) =
        ["_id", "foo", "baz", "updated_at"] from rfl,
      show lookupD (.vobj [("_id", Val.vstr "i1"), ("foo", f)]) "_id" =
        Val.vstr "i1" from rfl,
      show lookupD (.vobj [("_id", Val.vstr "i1"), ("foo", f), ("baz", v),
        ("updated_at", Val.vdate ts)]) "_id" = Val.vstr "i1" from rfl,
      show lookupD (.vobj [("_id", Val.vstr "i1"), ("foo", f)]) "foo" = f
        from rfl,
      show lookupD (.vobj [("_id", Val.vstr "i1"), ("foo", f), ("baz", v),
        ("updated_at", Val.vdate ts)]) "foo" = f from rfl,
      show lookupD (.vobj [("_id", Val.vstr "i1"), ("foo", f), ("baz", v),
        ("updated_at", Val.vdate ts)]) "baz" = v from rfl,
      show lookupD (.vobj [("_id", Val.vstr "i1"), ("foo", f), ("baz", v),
        ("updated_at", Val.vdate ts)]) "updated_at" = Val.vdate ts
        from rfl]
  have hq2 : getUpdateQuery (some [("_id", Val.vstr "i1"), ("foo", f)])
      [("_id", Val.vstr "i1"), ("foo", f), ("baz", v),
        ("updated_at", Val.vdate ts)] =
      .ok (some ⟨some [("baz", v), ("updated_at", Val.vdate ts)],
        none⟩) := by
    simp only [getUpdateQuery, hcs3]
    rfl
  refine ⟨hcleand, ?_, ?_⟩
  · have hshape := (saveModel_clean_ok _ none
      [("_id", Val.vstr "i1"), ("foo", f)]
      [("_id", Val.vstr "i1"), ("foo", f), ("baz", v)] ts
      [("_id", Val.vstr "i1"), ("foo", f)] hcleand).trans
      (rfl : (match getUpdateQuery
          (some [("_id", Val.vstr "i1"), ("foo", f)])
          [("_id", Val.vstr "i1"), ("foo", f),
            ("updated_at", Val.vdate ts)] with
        | .ok none => (.ok .noopResolve : Except Unit SaveAction)
        | .ok (some q) => .ok (.update q)
        | .error e => .error e) = _)
    rw [hshape, hq1]
  · have hshape := (saveModel_clean_ok _ (some "priv")
      [("_id", Val.vstr "i1"), ("foo", f)]
      [("_id", Val.vstr "i1"), ("foo", f), ("baz", v)] ts
      [("_id", Val.vstr "i1"), ("foo", f), ("baz", v)] hcleanp).trans
      (rfl : (match getUpdateQuery
          (some [("_id", Val.vstr "i1"), ("foo", f)])
          [("_id", Val.vstr "i1"), ("foo", f), ("baz", v),
            ("updated_at", Val.vdate ts)] with
        | .ok none => (.ok .noopResolve : Except Unit SaveAction)
        | .ok (some q) => .ok (.update q)
        | .error e => .error e) = _)
    rw [hshape, hq2]

theorem context_containment_witness :
    (keysOf (Val.vint 9)).length = 0 ∧ Val.vint 9 ≠ Val.vnull ∧
      Val.vint 9 ≠ Val.vundefined ∧
      (cleanModel (writableReg (writableReg none "default" ["foo"]) "priv"
          ["foo", "baz"]) none
          (some [("_id", Val.vstr "i1"), ("foo", Val.vint 1)])
          [("_id", Val.vstr "i1"), ("foo", Val.vint 1),
            ("baz", Val.vint 9)] =
        .ok (.vobj [("_id", Val.vstr "i1"), ("foo", Val.vint 1)]) ∧
      saveModel (writableReg (writableReg none "default" ["foo"]) "priv"
          ["foo", "baz"]) none true
          (some [("_id", Val.vstr "i1"), ("foo", Val.vint 1)])
          [("_id", Val.vstr "i1"), ("foo", Val.vint 1),
            ("baz", Val.vint 9)] 7 =
        .ok (.update ⟨some [("updated_at", Val.vdate 7)], none⟩) ∧
      saveModel (writableReg (writableReg none "default" ["foo"]) "priv"
          ["foo", "baz"]) (some "priv") true
          (some [("_id", Val.vstr "i1"), ("foo", Val.vint 1)])
          [("_id", Val.vstr "i1"), ("foo", Val.vint 1),
            ("baz", Val.vint 9)] 7 =
        .ok (.update ⟨some [("baz", Val.vint 9),
          ("updated_at", Val.vdate 7)], none⟩)) :=
  ⟨by decide, by decide, by decide,
    context_containment (Val.vint 1) (Val.vint 9) 7
      (by decide) (by decide) (by decide)⟩
